import Mathlib

/-
Verification of the mem-cli encrypted-entry storage and retrieval subsystem.

The development shallowly embeds the data model and the operations of the
CLI source file (crypto engine, entry store, secret vault, search engine,
date parser) as executable Lean definitions, and proves the specified
properties about them.  JavaScript strings are modelled as Lean `String`
(lists of characters); byte buffers are modelled as `List Nat` with every
element below 256; the AES-256 block-cipher core and the scrypt key
derivation provided by the Node `crypto` library are modelled as explicit
parameters (a `BlockCipher` together with its functional-correctness
assumptions `GoodCipher`, and an arbitrary `kdf` function), while the CBC
chaining, the PKCS#7 padding, the hex wire format and every control-flow
decision of the source are embedded concretely.
-/

set_option maxHeartbeats 1000000

namespace MemCli

/-- Splits a character list at every occurrence of a separator character.
This models the JavaScript `String.prototype.split` with a single-character
separator string: `"a:b".split(":")` gives `["a","b"]`, and `"".split(":")`
gives `[""]` (the result is always non-empty). -/
def splitOnChar (sep : Char) : List Char → List (List Char)
  | [] => [[]]
  | c :: rest =>
    match splitOnChar sep rest with
    | [] => [[c]]
    | g :: gs => if c = sep then [] :: g :: gs else (c :: g) :: gs

/-- Lowercase hex digit character for a value (used below 16).  Node buffers
serialize to lowercase hex via `Buffer.toString("hex")`. -/
def hexDigit (n : Nat) : Char :=
  if n < 10 then Char.ofNat (48 + n) else Char.ofNat (87 + n)

/-- Two-character lowercase hex encoding of one byte. -/
def hexByte (b : Nat) : List Char := [hexDigit (b / 16), hexDigit (b % 16)]

/-- Hex encoding of a byte list, as produced by `Buffer.toString("hex")`. -/
def hexChars (bs : List Nat) : List Char := bs.flatMap hexByte

/-- Numeric value of a hex digit character, if it is one.  Both lowercase and
uppercase digits are accepted, as by `Buffer.from(str, "hex")`. -/
def hexVal (c : Char) : Option Nat :=
  if 48 ≤ c.toNat ∧ c.toNat ≤ 57 then some (c.toNat - 48)
  else if 97 ≤ c.toNat ∧ c.toNat ≤ 102 then some (c.toNat - 87)
  else if 65 ≤ c.toNat ∧ c.toNat ≤ 70 then some (c.toNat - 55)
  else none

/-- Lenient hex decoding as performed by Node `Buffer.from(str, "hex")`:
characters are consumed two at a time and decoding stops (discarding the
rest) at the first invalid or incomplete pair. -/
def hexDecode : List Char → List Nat
  | c1 :: c2 :: rest =>
    match hexVal c1, hexVal c2 with
    | some h, some l => (16 * h + l) :: hexDecode rest
    | _, _ => []
  | _ => []

/-- Bytewise xor of two byte lists (truncating to the shorter one). -/
def zipXor (a b : List Nat) : List Nat := List.zipWith (fun x y => x ^^^ y) a b

/-- PKCS#7 padding to the 16-byte AES block size, as applied internally by the
Node cipher in `aes-256-cbc` mode: always appends between 1 and 16 copies of
the pad length. -/
def pad16 (bs : List Nat) : List Nat :=
  bs ++ List.replicate (16 - bs.length % 16) (16 - bs.length % 16)

/-- PKCS#7 unpadding; `none` models the `bad decrypt` padding failure thrown
by `decipher.final()` when the last byte is not a valid pad length or the
trailing bytes do not all equal it. -/
def unpad (bs : List Nat) : Option (List Nat) :=
  match bs.getLast? with
  | none => none
  | some n =>
    if 1 ≤ n ∧ n ≤ 16 ∧ n ≤ bs.length ∧
        (bs.drop (bs.length - n)).all (fun x => x == n) then
      some (bs.take (bs.length - n))
    else none

/-- Splits a byte list into 16-byte chunks; the first argument is structural
fuel (any value at least the length of the list gives the full chunking). -/
def chunksAux : Nat → List Nat → List (List Nat)
  | 0, _ => []
  | _, [] => []
  | n + 1, bs => bs.take 16 :: chunksAux n (bs.drop 16)

/-- Splits a byte list into consecutive 16-byte chunks (the last chunk may be
shorter if the length is not a multiple of 16). -/
def chunks16 (bs : List Nat) : List (List Nat) := chunksAux bs.length bs

/-- Abstract 16-byte block cipher, standing for the AES-256 core reached
through `crypto.createCipheriv("aes-256-cbc", key, iv)`.  `enc` and `dec` map
a key and a 16-byte block to a 16-byte block. -/
structure BlockCipher where
  enc : List Nat → List Nat → List Nat
  dec : List Nat → List Nat → List Nat

/-- Functional-correctness assumptions about the block cipher: encrypting a
16-byte block of bytes yields a 16-byte block of bytes, and decrypting under
the same key inverts encryption. -/
structure GoodCipher (C : BlockCipher) : Prop where
  enc_len : ∀ k b, b.length = 16 → (C.enc k b).length = 16
  enc_lt : ∀ k b, b.length = 16 → (∀ x ∈ b, x < 256) → ∀ y ∈ C.enc k b, y < 256
  dec_enc : ∀ k b, b.length = 16 → C.dec k (C.enc k b) = b

/-- CBC-mode encryption of a list of plaintext blocks: each block is xored
with the previous ciphertext block (initially the IV) before the block
cipher is applied. -/
def cbcEnc (C : BlockCipher) (key : List Nat) : List Nat → List (List Nat) → List (List Nat)
  | _, [] => []
  | iv, b :: bs =>
    let c := C.enc key (zipXor iv b)
    c :: cbcEnc C key c bs

/-- CBC-mode decryption of a list of ciphertext blocks. -/
def cbcDec (C : BlockCipher) (key : List Nat) : List Nat → List (List Nat) → List (List Nat)
  | _, [] => []
  | iv, c :: cs => zipXor iv (C.dec key c) :: cbcDec C key c cs

/-- Embedding of the source `encrypt(text, password)` helper.  The fresh
16-byte random salt and IV drawn by `crypto.randomBytes(16)` are passed as
explicit arguments, and the scrypt key derivation
`crypto.scryptSync(password, salt, 32)` is the abstract parameter `kdf`.
The result is the wire-format blob `saltHex:ivHex:ciphertextHex`. -/
def encrypt (C : BlockCipher) (kdf : String → List Nat → List Nat)
    (text : List Nat) (password : String) (salt iv : List Nat) : String :=
  let key := kdf password salt
  let ct := (cbcEnc C key iv (chunks16 (pad16 text))).flatten
  ⟨hexChars salt ++ ':' :: hexChars iv ++ ':' :: hexChars ct⟩

/-- Decryption given the three colon-separated fields of a blob.  The guard
models the exceptions caught by the source `try` block and turned into
`null`: `createDecipheriv` rejects an IV that is not exactly 16 bytes, and
`decipher.final()` rejects an empty or non-block-aligned ciphertext. -/
def decryptFields (C : BlockCipher) (kdf : String → List Nat → List Nat)
    (saltHex ivHex ctHex : List Char) (password : String) : Option (List Nat) :=
  let salt := hexDecode saltHex
  let iv := hexDecode ivHex
  let ct := hexDecode ctHex
  if iv.length = 16 ∧ ct.length ≠ 0 ∧ ct.length % 16 = 0 then
    unpad (cbcDec C (kdf password salt) iv (chunks16 ct)).flatten
  else none

/-- Embedding of the source `decrypt(encryptedData, password)` helper.  The
source splits the blob on `":"` and destructures the first three fields
(`const [saltHex, ivHex, encryptedText] = encryptedData.split(":")`), so any
fields beyond the third are silently ignored; with fewer than three fields
the destructured variables are `undefined` and the resulting exception is
caught, giving `null` (here `none`). -/
def decrypt (C : BlockCipher) (kdf : String → List Nat → List Nat)
    (blob : String) (password : String) : Option (List Nat) :=
  match splitOnChar ':' blob.data with
  | saltHex :: ivHex :: ctHex :: _ => decryptFields C kdf saltHex ivHex ctHex password
  | _ => none

/-- Lowercasing of a string, character by character.  This models the ASCII
behaviour of JavaScript `toLowerCase()` as used on search-date terms and by
the case-insensitive regex flag. -/
def lowerStr (s : String) : String := ⟨s.data.map Char.toLower⟩

/-- Whitespace test for the characters trimmed by JavaScript
`String.prototype.trim` (ASCII fragment). -/
def isJsSpace (c : Char) : Bool := c == ' ' || c == '\t' || c == '\n' || c == '\r'

/-- Embedding of JavaScript `String.prototype.trim` (ASCII whitespace). -/
def trimStr (s : String) : String :=
  ⟨((s.data.dropWhile isJsSpace).reverse.dropWhile isJsSpace).reverse⟩

/-- Calendar day in local time: the level at which the date parser and the
date filter of the search engine operate (`startOfDay` / `isSameDay`). -/
structure CalDay where
  year : Nat
  month : Nat
  day : Nat
deriving DecidableEq

/-- Leap-year rule of the proleptic Gregorian calendar used by JavaScript
dates. -/
def isLeap (y : Nat) : Bool := (y % 4 == 0 && y % 100 != 0) || y % 400 == 0

/-- Number of days of a month (months are 1-based). -/
def daysInMonth (y m : Nat) : Nat :=
  if m == 2 then (if isLeap y then 29 else 28)
  else if m == 4 || m == 6 || m == 9 || m == 11 then 30
  else 31

/-- The calendar day before a given day; models `subDays(today, 1)`. -/
def prevDay (d : CalDay) : CalDay :=
  if 2 ≤ d.day then ⟨d.year, d.month, d.day - 1⟩
  else if 2 ≤ d.month then ⟨d.year, d.month - 1, daysInMonth d.year (d.month - 1)⟩
  else ⟨d.year - 1, 12, 31⟩

/-- The localized "today" terms recognized by the date parser. -/
def todayTerms : List String := ["today", "heute", "oggi", "hoy", "aujourd'hui"]

/-- The localized "yesterday" terms recognized by the date parser. -/
def yesterdayTerms : List String := ["yesterday", "gestern", "ieri", "ayer", "hier"]

/-- Value of a list of decimal digit characters. -/
def digitsToNat (cs : List Char) : Nat := cs.foldl (fun a c => 10 * a + (c.toNat - 48)) 0

/-- Parses one numeric field of a date format: between 1 and `maxLen` decimal
digits, as matched by the numeric patterns of the `date-fns` tokens `yyyy`,
`MM` and `dd`. -/
def numField (maxLen : Nat) (cs : List Char) : Option Nat :=
  if 1 ≤ cs.length ∧ cs.length ≤ maxLen ∧ cs.all Char.isDigit then
    some (digitsToNat cs)
  else none

/-- Validity check of a parsed calendar date: `date-fns` `parse` yields an
invalid date when the month or the day is out of range. -/
def validDate (y m d : Nat) : Option CalDay :=
  if 1 ≤ m ∧ m ≤ 12 ∧ 1 ≤ d ∧ d ≤ daysInMonth y m then some ⟨y, m, d⟩ else none

/-- Parse attempt against the fixed format `yyyy-MM-dd`. -/
def parseFormat1 (s : String) : Option CalDay :=
  match splitOnChar '-' s.data with
  | [ys, ms, ds] =>
    match numField 4 ys, numField 2 ms, numField 2 ds with
    | some y, some m, some d => validDate y m d
    | _, _, _ => none
  | _ => none

/-- Parse attempt against the fixed format `dd.MM.yyyy`. -/
def parseFormat2 (s : String) : Option CalDay :=
  match splitOnChar '.' s.data with
  | [ds, ms, ys] =>
    match numField 2 ds, numField 2 ms, numField 4 ys with
    | some d, some m, some y => validDate y m d
    | _, _, _ => none
  | _ => none

/-- Embedding of the source `parseSearchDate(dateStr)`.  The current local
day (`startOfDay(new Date())`) is the explicit argument `today`.  The
lowercased input is checked against the localized relative terms, then the
original string is parsed against `yyyy-MM-dd` and `dd.MM.yyyy` in that
order; `none` models the `null` returned when nothing applies. -/
def parseSearchDate (today : CalDay) (dateStr : String) : Option CalDay :=
  let input := lowerStr dateStr
  if input ∈ todayTerms then some today
  else if input ∈ yesterdayTerms then some (prevDay today)
  else
    match parseFormat1 dateStr with
    | some d => some d
    | none =>
      match parseFormat2 dateStr with
      | some d => some d
      | none => none

/-- Atomic single-character regex pieces of the modelled fragment: the
wildcard `.` and a literal character. -/
inductive SAtom where
  | any : SAtom
  | chr : Char → SAtom
deriving DecidableEq

/-- Sequence elements of the modelled regex fragment: a single-character
atom, or a starred atom (`a*`, `.*`). -/
inductive RAtom where
  | simple : SAtom → RAtom
  | star : SAtom → RAtom
deriving DecidableEq

/-- Case-insensitive match of a single-character atom against one character,
modelling the `"i"` regex flag via ASCII lowercasing. -/
def satomMatch : SAtom → Char → Bool
  | .any, _ => true
  | .chr c, x => c.toLower == x.toLower

/-- Characters of the full regex syntax that are outside the modelled
fragment; a pattern containing one of them is not given a semantics here. -/
def regexMeta : List Char :=
  ['\\', '^', '$', '+', '?', '(', ')', '[', ']', '\x7b', '\x7d', '|']

/-- Parses a (compiled) pattern string into a sequence of atoms of the
modelled regex fragment.  A `*` stars the preceding single-character atom
(with no preceding atom, or after another star, the full syntax would reject
the pattern as well); characters outside the fragment give `none`.  The
accumulator holds the atoms parsed so far, in reverse. -/
def parseAtoms : List Char → List RAtom → Option (List RAtom)
  | [], acc => some acc.reverse
  | '*' :: cs, acc =>
    match acc with
    | .simple a :: acc2 => parseAtoms cs (.star a :: acc2)
    | _ => none
  | '.' :: cs, acc => parseAtoms cs (.simple .any :: acc)
  | c :: cs, acc =>
    if c ∈ regexMeta then none else parseAtoms cs (.simple (.chr c) :: acc)

/-- Nullability of an atom sequence: it matches the empty string exactly when
every element is starred. -/
def nullableSeq : List RAtom → Bool
  | [] => true
  | .star _ :: rest => nullableSeq rest
  | .simple _ :: _ => false

/-- Brzozowski derivative of an atom sequence by one character, as a list of
alternative residual sequences. -/
def derivSeq : List RAtom → Char → List (List RAtom)
  | [], _ => []
  | .simple a :: rest, c => if satomMatch a c then [rest] else []
  | .star a :: rest, c =>
    (if satomMatch a c then [RAtom.star a :: rest] else []) ++ derivSeq rest c

/-- One step of the derivative automaton on a set of alternatives. -/
def stepAlts (alts : List (List RAtom)) (c : Char) : List (List RAtom) :=
  alts.flatMap (fun r => derivSeq r c)

/-- Runs the derivative automaton over a character list. -/
def runAlts (alts : List (List RAtom)) : List Char → List (List RAtom)
  | [] => alts
  | c :: cs => runAlts (stepAlts alts c) cs

/-- Acceptance: some alternative is nullable after consuming the input. -/
def acceptsSeq (atoms : List RAtom) (s : List Char) : Bool :=
  (runAlts [atoms] s).any nullableSeq

/-- Unanchored matching, modelling `RegExp.prototype.test`: the pattern is
wrapped between two `.*` so that it may match any substring of the input. -/
def searchSeq (atoms : List RAtom) (s : List Char) : Bool :=
  acceptsSeq (RAtom.star .any :: (atoms ++ [RAtom.star .any])) s

/-- Concrete fragment instance of the regex engine, used to evaluate the
development on explicit inputs: the pattern is parsed into the
literal/dot/star fragment and matched case-insensitively against any
substring of `s`.  The full JS engine is library code and enters the search
embedding only as an explicit `test` parameter; this instance agrees with it
on the fragment, and gives no match to patterns outside the fragment (which
the full engine would interpret further, or reject). -/
def jsTest (pat : String) (s : String) : Bool :=
  match parseAtoms pat.data [] with
  | some atoms => searchSeq atoms s.data
  | none => false

/-- Embedding of the pattern compilation `query.replace(/\*/g, ".*")`: every
`*` character is replaced by the two characters `.*`, all other characters
are kept verbatim. -/
def starExpand (cs : List Char) : List Char :=
  cs.flatMap (fun c => if c = '*' then ['.', '*'] else [c])

/-- The compiled search pattern of the `find` command, as a string. -/
def compilePattern (query : String) : String := ⟨starExpand query.data⟩

/-- Entry record of the entry store (`db.json`).  The creation instant
stored as an ISO string in the source is modelled by its local calendar day,
which is the only aspect the search engine observes. -/
structure Entry where
  id : Nat
  content : String
  tags : List String
  timestamp : CalDay
  encrypted : Bool
  usageCount : Nat
deriving DecidableEq

/-- The fixed sentinel placeholder stored as the content of encrypted
entries. -/
def sentinel : String := "*** ENCRYPTED ***"

/-- Loaded persistent state: the entries collection of `db.json` and the
secrets mapping of `vault.json`.  The JavaScript object holding the secrets
is modelled as an association list in key-insertion order with unique
keys. -/
structure MemState where
  entries : List Entry
  secrets : List (Nat × String)
deriving DecidableEq

/-- Lookup of a vault record (`vault.data.secrets[id]`). -/
def lookupSecret : List (Nat × String) → Nat → Option String
  | [], _ => none
  | (k, v) :: rest, id => if k = id then some v else lookupSecret rest id

/-- Key assignment on the vault object (`vault.data.secrets[id] = blob`):
updates the value in place if the key exists, otherwise appends it. -/
def setSecret : List (Nat × String) → Nat → String → List (Nat × String)
  | [], id, blob => [(id, blob)]
  | (k, v) :: rest, id, blob =>
    if k = id then (id, blob) :: rest else (k, v) :: setSecret rest id blob

/-- Key removal on the vault object (`delete vault.data.secrets[id]`). -/
def eraseSecret (secrets : List (Nat × String)) (id : Nat) : List (Nat × String) :=
  secrets.filter (fun kv => kv.1 ≠ id)

/-- Operation results reported to the user; errors model the `console.error`
early returns of the source actions. -/
inductive MemErr where
  | noContent : MemErr
  | notFound : MemErr
  | wrongPassword : MemErr
deriving DecidableEq

/-- Result of an action: a success value or a reported error. -/
inductive Res (α : Type) where
  | ok : α → Res α
  | err : MemErr → Res α
deriving DecidableEq

/-- Embedding of the source `getNextId()`: `100` on an empty collection,
otherwise `Math.max(...ids) + 1`, recomputed from the current entries. -/
def getNextId (entries : List Entry) : Nat :=
  if entries.isEmpty then 100
  else (entries.map (fun e => e.id)).foldl Nat.max 0 + 1

/-- Embedding of the tag-string handling of the `add` action:
`options.tags ? options.tags.split(",").map(t => t.trim()) : []` (the
default option value `""` is falsy). -/
def parseTags (tagsArg : String) : List String :=
  if tagsArg = "" then [] else (splitOnChar ',' tagsArg.data).map (fun l => trimStr ⟨l⟩)

/-- Embedding of the tag-string handling of the `edit` action:
`answers.tags.split(",").map(t => t.trim())`, with no emptiness guard. -/
def splitTags (tagsArg : String) : List String :=
  (splitOnChar ',' tagsArg.data).map (fun l => trimStr ⟨l⟩)

/-- Embedding of the `add` action.  The resolved content (argument or
clipboard) is the `content` parameter; the interactively prompted password
and the encryption function (the crypto engine together with its fresh
randomness) are parameters as well.  Empty or whitespace-only content is
rejected; with `-e` the trimmed content is encrypted into the vault under
the new id and the sentinel is stored as the entry content. -/
def addAction (encFn : String → String → String) (s : MemState)
    (content : String) (tagsArg : String) (encFlag : Bool) (password : String)
    (now : CalDay) : MemState × Res Nat :=
  if trimStr content = "" then (s, .err .noContent)
  else
    let id := getNextId s.entries
    if encFlag then
      let e : Entry := ⟨id, sentinel, parseTags tagsArg, now, true, 0⟩
      ({ entries := s.entries ++ [e],
         secrets := setSecret s.secrets id (encFn (trimStr content) password) },
       .ok id)
    else
      let e : Entry := ⟨id, trimStr content, parseTags tagsArg, now, false, 0⟩
      ({ entries := s.entries ++ [e], secrets := s.secrets }, .ok id)

/-- Date filter resolution of the `find` action:
`options.date ? parseSearchDate(options.date) : null`. -/
def dateFilterOf (today : CalDay) (dateOpt : Option String) : Option CalDay :=
  match dateOpt with
  | some ds => parseSearchDate today ds
  | none => none

/-- The per-entry predicate of the `find` action: the compiled pattern must
match the content or some tag, and, when a date filter is present, the
timestamp must fall on the same calendar day.  The case-insensitive regex
engine (`regex.test`, i.e. `new RegExp(pattern, "i").test`) is JS library
code and is modelled as the explicit parameter `test`, exactly as the AES
core is for the crypto engine; the pattern-compilation step
`query.replace(/\*/g, ".*")` is repository code and is embedded
concretely. -/
def findMatch (test : String → String → Bool) (today : CalDay) (query : String)
    (dateOpt : Option String) (e : Entry) : Bool :=
  let filterDate := dateFilterOf today dateOpt
  let pat := compilePattern query
  let matchText := test pat e.content || e.tags.any (fun t => test pat t)
  let matchDate := match filterDate with
    | some fd => e.timestamp == fd
    | none => true
  matchText && matchDate

/-- Embedding of the `find` action: filters the entries in place, preserving
their stored order; it never mutates the collections.  `test` is the regex
engine collaborator. -/
def findAction (test : String → String → Bool) (entries : List Entry)
    (today : CalDay) (query : String) (dateOpt : Option String) : List Entry :=
  entries.filter (findMatch test today query dateOpt)

/-- Property of a regex engine used by the match-everything default: the
compiled pattern of "*" (that is, ".*") tests true on every string.  This
holds of the JS engine, and of the fragment instance `jsTest`. -/
def MatchesAllStar (test : String → String → Bool) : Prop :=
  ∀ s : String, test (compilePattern "*") s = true

/-- Update of the first entry with a given id by a field transformer; the
source mutates the object found by `find` / `findIndex`, which resolves the
first entry with the id. -/
def updateFirst (f : Entry → Entry) : List Entry → Nat → List Entry
  | [], _ => []
  | e :: es, id => if e.id = id then f e :: es else e :: updateFirst f es id

/-- Usage-counter increment performed by the `get` action
(`entry.usageCount = (entry.usageCount || 0) + 1`). -/
def incUsage (e : Entry) : Entry := { e with usageCount := e.usageCount + 1 }

/-- Embedding of the `get` action.  The entry is resolved first; for an
encrypted entry the prompted password must decrypt the vault record (a
missing record decrypts like a wrong password, since `decrypt(undefined, p)`
throws into the `catch`).  Only after a successful decryption is the usage
counter incremented and the state written back; on failure the state is
returned unchanged. -/
def getAction (decFn : String → String → Option String) (s : MemState)
    (id : Nat) (password : String) : MemState × Res String :=
  match s.entries.find? (fun e => e.id = id) with
  | none => (s, .err .notFound)
  | some entry =>
    if entry.encrypted then
      match (lookupSecret s.secrets id).bind (fun blob => decFn blob password) with
      | none => (s, .err .wrongPassword)
      | some pt => ({ s with entries := updateFirst incUsage s.entries id }, .ok pt)
    else ({ s with entries := updateFirst incUsage s.entries id }, .ok entry.content)

/-- Embedding of the `edit` action.  The entry is resolved first; for an
encrypted entry the current password must decrypt the vault record before
anything is mutated.  The new content and tags come from the interactive
prompt; for an encrypted entry the vault record is replaced by the new
ciphertext (under the freshly prompted password) and the stored sentinel
content is left untouched, otherwise the content is replaced directly.  The
tags are always replaced wholesale. -/
def editAction (encFn : String → String → String)
    (decFn : String → String → Option String) (s : MemState) (id : Nat)
    (password newContent newTags newPass : String) : MemState × Res Unit :=
  match s.entries.find? (fun e => e.id = id) with
  | none => (s, .err .notFound)
  | some entry =>
    if entry.encrypted then
      match (lookupSecret s.secrets id).bind (fun blob => decFn blob password) with
      | none => (s, .err .wrongPassword)
      | some _ =>
        ({ entries := updateFirst (fun e => { e with tags := splitTags newTags }) s.entries id,
           secrets := setSecret s.secrets id (encFn newContent newPass) },
         .ok ())
    else
      ({ entries := updateFirst
            (fun e => { e with content := newContent, tags := splitTags newTags }) s.entries id,
         secrets := s.secrets },
       .ok ())

/-- Embedding of the `delete` action: unconditionally filters the entries and
removes the vault key, then reports success; there is no not-found check. -/
def deleteAction (s : MemState) (id : Nat) : MemState × Res Unit :=
  ({ entries := s.entries.filter (fun e => e.id ≠ id),
     secrets := eraseSecret s.secrets id },
   .ok ())

/-- Counter increment on the tag-frequency object
(`tagMap[t] = (tagMap[t] || 0) + 1`), modelled on an insertion-ordered
association list. -/
def bump : List (String × Nat) → String → List (String × Nat)
  | [], t => [(t, 1)]
  | (t2, n) :: rest, t =>
    if t2 = t then (t2, n + 1) :: rest else (t2, n) :: bump rest t

/-- Tag-frequency accumulation of the `tags` action over all entries, in
encounter order.  Repeated tags inside one entry are counted once per
occurrence (`e.tags.forEach` has no deduplication). -/
def tagCounts (entries : List Entry) : List (String × Nat) :=
  entries.foldl (fun m e => e.tags.foldl bump m) []

/-- Array-index test of the JS object model: a string key is an array index
when it is the canonical decimal form (no leading zero except "0" itself) of
an integer below 2^32 - 1.  Such keys are enumerated first, in ascending
numeric order, by own-property enumeration (`Object.entries`). -/
def isArrayIndex (s : String) : Bool :=
  match s.data with
  | [] => false
  | ['0'] => true
  | '0' :: _ :: _ => false
  | cs => cs.all Char.isDigit && digitsToNat cs < 4294967295

/-- Ascending insertion by numeric key value, for the array-index portion of
own-property enumeration. -/
def insertAsc (p : String × Nat) : List (String × Nat) → List (String × Nat)
  | [] => [p]
  | q :: rest =>
    if digitsToNat q.1.data < digitsToNat p.1.data then q :: insertAsc p rest
    else p :: q :: rest

/-- Sort of the array-index keys in ascending numeric order. -/
def sortIndexAsc : List (String × Nat) → List (String × Nat)
  | [] => []
  | p :: rest => insertAsc p (sortIndexAsc rest)

/-- Enumeration order of `Object.entries` on the tag map: keys that are
canonical array indices come first in ascending numeric order, followed by
the remaining string keys in insertion (first-encounter) order. -/
def objectEntries (m : List (String × Nat)) : List (String × Nat) :=
  sortIndexAsc (m.filter (fun p => isArrayIndex p.1))
    ++ m.filter (fun p => !isArrayIndex p.1)

/-- Stable insertion of a tag-count pair into a list sorted by descending
count: the pair goes before the first element whose count is not larger,
which keeps earlier elements of equal count earlier. -/
def insertDesc (p : String × Nat) : List (String × Nat) → List (String × Nat)
  | [] => [p]
  | q :: rest => if p.2 < q.2 then q :: insertDesc p rest else p :: q :: rest

/-- Stable sort by descending count, modelling
`.sort((a, b) => b[1] - a[1])` (JavaScript array sort is stable). -/
def sortByCountDesc : List (String × Nat) → List (String × Nat)
  | [] => []
  | p :: rest => insertDesc p (sortByCountDesc rest)

/-- Embedding of the `tags` action output:
`Object.entries(tagMap).sort((a, b) => b[1] - a[1])` — the entries in JS
own-property enumeration order, stably sorted by descending count. -/
def allTags (entries : List Entry) : List (String × Nat) :=
  sortByCountDesc (objectEntries (tagCounts entries))

/-- Count lookup in a tag-frequency list, defaulting to zero. -/
def countOf (m : List (String × Nat)) (t : String) : Nat :=
  match m with
  | [] => 0
  | (t2, n) :: rest => if t2 = t then n else countOf rest t

/-- One user-invoked operation, with every interactively acquired input
(passwords, new content, new tags) and every environment input (current
day) made explicit. -/
inductive MemOp where
  | add : String → String → Bool → String → CalDay → MemOp
  | get : Nat → String → MemOp
  | edit : Nat → String → String → String → String → MemOp
  | del : Nat → MemOp
  | findQ : CalDay → String → Option String → MemOp
  | tagsQ : MemOp

/-- State transition of one operation.  The `find` and `tags` actions only
read the collections and never write them back. -/
def applyOp (encFn : String → String → String)
    (decFn : String → String → Option String) (s : MemState) : MemOp → MemState
  | .add content tagsArg encFlag password now =>
    (addAction encFn s content tagsArg encFlag password now).1
  | .get id password => (getAction decFn s id password).1
  | .edit id password newContent newTags newPass =>
    (editAction encFn decFn s id password newContent newTags newPass).1
  | .del id => (deleteAction s id).1
  | .findQ _ _ _ => s
  | .tagsQ => s

/-- Inputs of one `add` invocation. -/
structure AddInput where
  content : String
  tagsArg : String
  encFlag : Bool
  password : String
  now : CalDay

/-- Runs a sequence of `add` invocations and collects the ids assigned by
the successful ones, in order. -/
def runAdds (encFn : String → String → String) (s : MemState) :
    List AddInput → List Nat
  | [] => []
  | a :: rest =>
    match addAction encFn s a.content a.tagsArg a.encFlag a.password a.now with
    | (s2, .ok id) => id :: runAdds encFn s2 rest
    | (s2, .err _) => runAdds encFn s2 rest

/-- Encrypted-entry invariant on the loaded state: every entry flagged as
encrypted stores the sentinel placeholder as its content, never plaintext. -/
def EncInv (s : MemState) : Prop :=
  ∀ e ∈ s.entries, e.encrypted = true → e.content = sentinel

/-- Distinctness of the entry ids of a state. -/
def IdsNodup (s : MemState) : Prop := (s.entries.map (fun e => e.id)).Nodup

/-- Flag monotonicity between two states: an id whose entry was flagged
encrypted is still flagged encrypted if it survives. -/
def FlagMono (s s2 : MemState) : Prop :=
  ∀ e2 ∈ s2.entries, ∀ e ∈ s.entries, e2.id = e.id → e.encrypted = true →
    e2.encrypted = true

/-- Key material of the concrete example cipher: the key bytes reduced
modulo 256 and padded to 16 bytes. -/
def toyKey (k : List Nat) : List Nat :=
  ((k.map (fun x => x % 256)) ++ List.replicate 16 0).take 16

/-- Concrete block-cipher instance used to evaluate the development on
explicit inputs: a 16-byte xor cipher (an involution). -/
def toyCipher : BlockCipher :=
  ⟨fun k b => zipXor (toyKey k) b, fun k b => zipXor (toyKey k) b⟩

/-- Concrete key-derivation instance used to evaluate the development on
explicit inputs: mixes a password digest into the salt bytes. -/
def toyKdf : String → List Nat → List Nat :=
  fun pw salt =>
    salt.map (fun x => (x + (pw.data.map Char.toNat).sum) % 256)

/-- Concrete decryption function for evaluating the state-machine actions. -/
def decFn0 : String → String → Option String :=
  fun blob pw => if blob = "BLOB" ∧ pw = "pw" then some "SECRET" else none

/-- Concrete encryption function for evaluating the state-machine actions. -/
def encFn0 : String → String → String := fun content pw => content ++ "/" ++ pw

/-- Concrete encrypted entry for evaluating the state-machine actions. -/
def e0 : Entry := ⟨101, sentinel, ["work"], ⟨2026, 2, 10⟩, true, 5⟩

/-- Concrete plain entry for evaluating the state-machine actions. -/
def e1 : Entry := ⟨102, "React hook", ["react", "hooks"], ⟨2026, 2, 11⟩, false, 0⟩

/-- Concrete state with one encrypted and one plain entry. -/
def s0 : MemState := ⟨[e0, e1], [(101, "BLOB")]⟩

/-- Concrete entries used to evaluate the tag aggregation. -/
def tagEntries : List Entry :=
  [⟨100, "c1", ["a", "b"], ⟨2026, 1, 1⟩, false, 0⟩,
   ⟨101, "c2", ["a"], ⟨2026, 1, 1⟩, false, 0⟩,
   ⟨102, "c3", ["b", "b"], ⟨2026, 1, 1⟩, false, 0⟩]

/-- Concrete entries with a numeric-string tag, used to evaluate the
own-property enumeration order of the tag aggregation. -/
def idxEntries : List Entry :=
  [⟨100, "c1", ["zebra"], ⟨2026, 1, 1⟩, false, 0⟩,
   ⟨101, "c2", ["2024"], ⟨2026, 1, 1⟩, false, 0⟩]

/-
Helper lemmas.
-/

theorem filter_eq_self_of {α : Type} (p : α → Bool) (l : List α)
    (h : ∀ a ∈ l, p a = true) : l.filter p = l := by
  induction l with
  | nil => rfl
  | cons a t ih =>
    have ha : p a = true := h a (List.mem_cons_self a t)
    simp only [List.filter_cons, ha, if_true]
    exact congrArg (a :: ·) (ih (fun b hb => h b (List.mem_cons_of_mem a hb)))

theorem filter_idem {α : Type} (p : α → Bool) (l : List α) :
    (l.filter p).filter p = l.filter p := by
  induction l with
  | nil => rfl
  | cons a t ih =>
    by_cases ha : p a = true
    · simp [List.filter_cons, ha, ih]
    · have ha2 : p a = false := by
        cases h : p a
        · rfl
        · exact absurd h ha
      simp [List.filter_cons, ha2, ih]

/-- C10: the delete operation always reports success (it never signals
NotFound), deleting an absent id leaves both collections unchanged, and
deleting the same id twice gives the same state as deleting it once. -/
theorem delete_never_fails :
    (∀ s id, (deleteAction s id).2 = Res.ok ()) ∧
    (∀ s id, (∀ e ∈ s.entries, e.id ≠ id) → (∀ kv ∈ s.secrets, kv.1 ≠ id) →
      (deleteAction s id).1 = s) ∧
    (∀ s id, (deleteAction (deleteAction s id).1 id).1 = (deleteAction s id).1) := by
  refine ⟨fun s id => rfl, fun s id he hk => ?_, fun s id => ?_⟩
  · cases s with
    | mk entries secrets =>
      simp only [deleteAction, eraseSecret]
      congr 1
      · exact filter_eq_self_of _ entries (fun a ha => by
          simpa using he a ha)
      · exact filter_eq_self_of _ secrets (fun a ha => by
          simpa using hk a ha)
  · simp only [deleteAction, eraseSecret]
    congr 1
    · exact filter_idem _ s.entries
    · exact filter_idem _ s.secrets

/-- Witness for C10: deleting an id absent from a concrete state succeeds
and leaves the state unchanged. -/
theorem delete_never_fails_witness :
    (∀ e ∈ s0.entries, e.id ≠ 999) ∧ (∀ kv ∈ s0.secrets, kv.1 ≠ 999) ∧
      (deleteAction s0 999).1 = s0 :=
  ⟨by decide, by decide, delete_never_fails.2.1 s0 999 (by decide) (by decide)⟩

theorem foldl_max_init_le (l : List Nat) (a : Nat) : a ≤ l.foldl Nat.max a := by
  induction l generalizing a with
  | nil => exact Nat.le_refl a
  | cons x t ih => exact Nat.le_trans (Nat.le_max_left a x) (ih (Nat.max a x))

theorem foldl_max_mem_le (l : List Nat) (a x : Nat) (hx : x ∈ l) :
    x ≤ l.foldl Nat.max a := by
  induction l generalizing a with
  | nil => cases hx
  | cons y t ih =>
    cases hx with
    | head =>
      exact Nat.le_trans (Nat.le_max_right a x) (foldl_max_init_le t (Nat.max a x))
    | tail _ h => exact ih (Nat.max a y) h

theorem foldl_max_mem (l : List Nat) (a : Nat) :
    l.foldl Nat.max a ∈ l ∨ l.foldl Nat.max a = a := by
  induction l generalizing a with
  | nil => exact Or.inr rfl
  | cons x t ih =>
    rcases ih (Nat.max a x) with h | h
    · exact Or.inl (List.mem_cons_of_mem x h)
    · simp only [List.foldl_cons, h]
      rcases Nat.le_total a x with hax | hxa
      · exact Or.inl (by simp [Nat.max_eq_right hax])
      · exact Or.inr (Nat.max_eq_left hxa)

theorem id_lt_getNextId (entries : List Entry) (e : Entry) (he : e ∈ entries) :
    e.id < getNextId entries := by
  have hne : entries.isEmpty = false := by
    cases entries with
    | nil => cases he
    | cons a t => rfl
  have hle : e.id ≤ (entries.map (fun x => x.id)).foldl Nat.max 0 :=
    foldl_max_mem_le _ 0 e.id (List.mem_map_of_mem _ he)
  simp only [getNextId, hne, Bool.false_eq_true, if_false]
  exact Nat.lt_succ_of_le hle

theorem getNextId_unfold (a : Entry) (t : List Entry) :
    getNextId (a :: t) = ((a :: t).map (fun x => x.id)).foldl Nat.max 0 + 1 := by
  simp [getNextId]

theorem getNextId_append (l : List Entry) (e : Entry) (h : e.id = getNextId l) :
    getNextId (l ++ [e]) = e.id + 1 := by
  cases l with
  | nil => simp [getNextId] at h; simp [getNextId, h]
  | cons a t =>
    have hM : e.id = ((a :: t).map (fun x => x.id)).foldl Nat.max 0 + 1 := by
      rw [h, getNextId_unfold]
    have hmax : Nat.max (((a :: t).map (fun x => x.id)).foldl Nat.max 0) e.id
        = e.id := Nat.max_eq_right (by rw [hM]; exact Nat.le_succ _)
    have hcons : (a :: t) ++ [e] = a :: (t ++ [e]) := rfl
    rw [hcons, getNextId_unfold]
    have h2 : (a :: (t ++ [e])).map (fun x => x.id)
        = ((a :: t).map (fun x => x.id)) ++ [e.id] := by simp
    rw [h2, List.foldl_append, List.foldl_cons, List.foldl_nil, hmax]

theorem addAction_err_state (encFn : String → String → String) (s : MemState)
    (c t : String) (ef : Bool) (p : String) (now : CalDay) (s2 : MemState)
    (m : MemErr) (h : addAction encFn s c t ef p now = (s2, Res.err m)) :
    s2 = s := by
  by_cases hc : trimStr c = ""
  · simp [addAction, hc] at h
    exact h.1.symm
  · cases ef <;> simp [addAction, hc] at h

theorem addAction_ok_ids (encFn : String → String → String) (s : MemState)
    (c t : String) (ef : Bool) (p : String) (now : CalDay) (s2 : MemState)
    (id : Nat) (h : addAction encFn s c t ef p now = (s2, Res.ok id)) :
    id = getNextId s.entries ∧ getNextId s2.entries = id + 1 := by
  by_cases hc : trimStr c = ""
  · simp [addAction, hc] at h
  · cases ef <;>
      · simp [addAction, hc] at h
        rcases h with ⟨hs, hid⟩
        subst hs
        refine ⟨hid.symm, ?_⟩
        rw [getNextId_append s.entries _ (by simp [hid])]
        simp [hid]

theorem addAction_succeeds (encFn : String → String → String) (s : MemState)
    (c t : String) (ef : Bool) (p : String) (now : CalDay)
    (h : trimStr c ≠ "") :
    ∃ s2, addAction encFn s c t ef p now = (s2, Res.ok (getNextId s.entries)) := by
  cases ef <;> · simp [addAction, h]

theorem runAdds_lb (encFn : String → String → String) :
    ∀ (inputs : List AddInput) (s : MemState) (x : Nat),
      x ∈ runAdds encFn s inputs → getNextId s.entries ≤ x := by
  intro inputs
  induction inputs with
  | nil => intro s x hx; cases hx
  | cons a rest ih =>
    intro s x hx
    rcases hr : addAction encFn s a.content a.tagsArg a.encFlag a.password a.now
      with ⟨s2, r⟩
    cases r with
    | ok id =>
      rw [runAdds, hr] at hx
      rcases addAction_ok_ids _ _ _ _ _ _ _ _ _ hr with ⟨hid, hnext⟩
      subst hid
      cases hx with
      | head => exact Nat.le_refl _
      | tail _ hmem =>
        have h2 := ih s2 x hmem
        rw [hnext] at h2
        exact Nat.le_trans (Nat.le_succ _) h2
    | err m =>
      rw [runAdds, hr] at hx
      have hse := addAction_err_state _ _ _ _ _ _ _ _ _ hr
      subst hse
      exact ih s2 x hx

theorem runAdds_chain (encFn : String → String → String) :
    ∀ (inputs : List AddInput) (s : MemState),
      List.Chain' (fun a b => a < b) (runAdds encFn s inputs) := by
  intro inputs
  induction inputs with
  | nil => intro s; exact List.chain'_nil
  | cons a rest ih =>
    intro s
    rcases hr : addAction encFn s a.content a.tagsArg a.encFlag a.password a.now
      with ⟨s2, r⟩
    cases r with
    | ok id =>
      rw [runAdds, hr]
      refine List.chain'_cons'.mpr ⟨?_, ih s2⟩
      intro y hy
      have hmem : y ∈ runAdds encFn s2 rest := by
        cases hl : runAdds encFn s2 rest with
        | nil => rw [hl] at hy; cases hy
        | cons z zs =>
          rw [hl] at hy
          simp only [List.head?_cons, Option.mem_def, Option.some.injEq] at hy
          rw [← hy]
          exact List.mem_cons_self z zs
      have hlb := runAdds_lb encFn rest s2 y hmem
      rcases addAction_ok_ids _ _ _ _ _ _ _ _ _ hr with ⟨_, hnext⟩
      rw [hnext] at hlb
      exact Nat.lt_of_succ_le hlb
    | err m =>
      rw [runAdds, hr]
      have hse := addAction_err_state _ _ _ _ _ _ _ _ _ hr
      subst hse
      exact ih s2

/-- C6: `getNextId` returns 100 on an empty collection and the maximal id
plus one otherwise (recomputed from the current entries), so over any
sequence of add invocations the assigned ids are strictly increasing and
start at 100 on an empty store. -/
theorem nextId_assignment :
    getNextId [] = 100 ∧
    (∀ entries : List Entry, entries ≠ [] →
      ∃ e ∈ entries, getNextId entries = e.id + 1 ∧ ∀ e2 ∈ entries, e2.id ≤ e.id) ∧
    (∀ encFn s inputs, List.Chain' (fun a b => a < b) (runAdds encFn s inputs)) ∧
    (∀ encFn (s : MemState) (a : AddInput) (rest : List AddInput),
      s.entries = [] → trimStr a.content ≠ "" →
      (runAdds encFn s (a :: rest)).head? = some 100) := by
  refine ⟨rfl, ?_, fun encFn s inputs => runAdds_chain encFn inputs s, ?_⟩
  · intro entries hne
    cases entries with
    | nil => exact absurd rfl hne
    | cons a t =>
      have hM := foldl_max_mem ((a :: t).map (fun x => x.id)) 0
      rcases hM with hmem | hzero
      · rcases List.mem_map.mp hmem with ⟨e, he, hid⟩
        refine ⟨e, he, ?_, ?_⟩
        · rw [getNextId_unfold, hid]
        · intro e2 he2
          rw [hid]
          exact foldl_max_mem_le _ 0 e2.id (List.mem_map_of_mem _ he2)
      · refine ⟨a, List.mem_cons_self a t, ?_, ?_⟩
        · have ha : a.id ≤ 0 := by
            have := foldl_max_mem_le ((a :: t).map (fun x => x.id)) 0 a.id
              (List.mem_map_of_mem _ (List.mem_cons_self a t))
            rwa [hzero] at this
          have ha0 : a.id = 0 := Nat.le_zero.mp ha
          rw [getNextId_unfold, hzero, ha0]
        · intro e2 he2
          have := foldl_max_mem_le ((a :: t).map (fun x => x.id)) 0 e2.id
            (List.mem_map_of_mem _ he2)
          rw [hzero] at this
          exact Nat.le_trans this (Nat.zero_le _)
  · intro encFn s a rest hempty htrim
    rcases addAction_succeeds encFn s a.content a.tagsArg a.encFlag a.password
      a.now htrim with ⟨s2, hr⟩
    rw [runAdds, hr, hempty]
    rfl

/-- Witness for C6: the concrete two-entry collection has next id equal to
its maximal id plus one, and a fresh store assigns 100 first. -/
theorem nextId_assignment_witness :
    ([e0, e1] ≠ ([] : List Entry)) ∧
    (∃ e ∈ [e0, e1], getNextId [e0, e1] = e.id + 1 ∧ ∀ e2 ∈ [e0, e1], e2.id ≤ e.id) ∧
    trimStr "note" ≠ "" ∧
    (runAdds encFn0 ⟨[], []⟩ [⟨"note", "", false, "", ⟨2026, 1, 1⟩⟩]).head? = some 100 :=
  ⟨by decide, nextId_assignment.2.1 [e0, e1] (by decide), by decide,
    nextId_assignment.2.2.2 encFn0 ⟨[], []⟩ ⟨"note", "", false, "", ⟨2026, 1, 1⟩⟩ []
      rfl (by decide)⟩

theorem countOf_bump_self (m : List (String × Nat)) (t : String) :
    countOf (bump m t) t = countOf m t + 1 := by
  induction m with
  | nil => simp [bump, countOf]
  | cons p rest ih =>
    rcases p with ⟨k, n⟩
    by_cases hk : k = t
    · subst hk; simp [bump, countOf]
    · simp [bump, countOf, hk, ih]

theorem countOf_bump_other (m : List (String × Nat)) (t t2 : String)
    (h : t2 ≠ t) : countOf (bump m t) t2 = countOf m t2 := by
  have h3 : t ≠ t2 := fun hh => h hh.symm
  induction m with
  | nil => simp [bump, countOf, h3]
  | cons p rest ih =>
    rcases p with ⟨k, n⟩
    by_cases hk : k = t
    · subst hk
      simp [bump, countOf, h3]
    · by_cases h2 : k = t2
      · simp [bump, countOf, hk, h2, h]
      · simp [bump, countOf, hk, h2, ih]

theorem countOf_foldl_bump (ts : List String) (m : List (String × Nat))
    (t : String) : countOf (ts.foldl bump m) t = countOf m t + ts.count t := by
  induction ts generalizing m with
  | nil => simp
  | cons x ts ih =>
    by_cases hx : t = x
    · subst hx
      simp only [List.foldl_cons, ih (bump m t), countOf_bump_self,
        List.count_cons, beq_self_eq_true, if_true]
      omega
    · have hx2 : (x == t) = false := by
        have : x ≠ t := fun hh => hx hh.symm
        simp [this]
      simp only [List.foldl_cons, ih (bump m x),
        countOf_bump_other m x t hx, List.count_cons, hx2]
      simp

theorem countOf_tagCounts_aux (entries : List Entry) (m : List (String × Nat))
    (t : String) :
    countOf (entries.foldl (fun m2 e => e.tags.foldl bump m2) m) t
      = countOf m t + ((entries.map (fun e => e.tags)).flatten).count t := by
  induction entries generalizing m with
  | nil => simp
  | cons e es ih =>
    simp only [List.foldl_cons, ih (e.tags.foldl bump m), countOf_foldl_bump,
      List.map_cons, List.flatten_cons, List.count_append]
    omega

theorem mem_insertDesc (p q : String × Nat) (l : List (String × Nat))
    (h : q ∈ insertDesc p l) : q = p ∨ q ∈ l := by
  induction l with
  | nil => simp [insertDesc] at h; exact Or.inl h
  | cons r rest ih =>
    simp only [insertDesc] at h
    by_cases hc : p.2 < r.2
    · rw [if_pos hc] at h
      cases h with
      | head => exact Or.inr (List.mem_cons_self _ _)
      | tail _ h2 =>
        rcases ih h2 with h3 | h3
        · exact Or.inl h3
        · exact Or.inr (List.mem_cons_of_mem _ h3)
    · rw [if_neg hc] at h
      cases h with
      | head => exact Or.inl rfl
      | tail _ h2 => exact Or.inr h2

theorem pairwise_insertDesc (p : String × Nat) (l : List (String × Nat))
    (h : l.Pairwise (fun a b => b.2 ≤ a.2)) :
    (insertDesc p l).Pairwise (fun a b => b.2 ≤ a.2) := by
  induction l with
  | nil => simp [insertDesc]
  | cons q rest ih =>
    rcases List.pairwise_cons.mp h with ⟨hq, hrest⟩
    simp only [insertDesc]
    by_cases hc : p.2 < q.2
    · rw [if_pos hc]
      refine List.pairwise_cons.mpr ⟨?_, ih hrest⟩
      intro x hx
      rcases mem_insertDesc p x rest hx with h2 | h2
      · rw [h2]; exact Nat.le_of_lt hc
      · exact hq x h2
    · rw [if_neg hc]
      refine List.pairwise_cons.mpr ⟨?_, h⟩
      intro x hx
      cases hx with
      | head => exact Nat.le_of_not_lt hc
      | tail _ h2 => exact Nat.le_trans (hq x h2) (Nat.le_of_not_lt hc)

theorem filter_insertDesc (p : String × Nat) (l : List (String × Nat)) (c : Nat) :
    (insertDesc p l).filter (fun q => q.2 == c)
      = if p.2 = c then p :: l.filter (fun q => q.2 == c)
        else l.filter (fun q => q.2 == c) := by
  induction l with
  | nil =>
    by_cases hp : p.2 = c
    · simp [insertDesc, List.filter_cons, hp]
    · simp [insertDesc, List.filter_cons, hp]
  | cons q rest ih =>
    simp only [insertDesc]
    by_cases hc : p.2 < q.2
    · rw [if_pos hc]
      by_cases hp : p.2 = c
      · have hq : (q.2 == c) = false := by
          have : q.2 ≠ c := by omega
          simp [this]
        simp [List.filter_cons, hq, ih, hp]
      · simp only [List.filter_cons, ih, if_neg hp]
    · rw [if_neg hc]
      by_cases hp : p.2 = c
      · simp [List.filter_cons, hp]
      · have hp2 : (p.2 == c) = false := by simp [hp]
        simp [List.filter_cons, hp2, hp]

theorem filter_sortByCountDesc (l : List (String × Nat)) (c : Nat) :
    (sortByCountDesc l).filter (fun q => q.2 == c)
      = l.filter (fun q => q.2 == c) := by
  induction l with
  | nil => rfl
  | cons p rest ih =>
    simp only [sortByCountDesc, filter_insertDesc]
    by_cases hp : p.2 = c
    · have hp2 : (p.2 == c) = true := by simp [hp]
      simp [List.filter_cons, hp, hp2, ih]
    · have hp2 : (p.2 == c) = false := by simp [hp]
      simp [List.filter_cons, hp, hp2, ih]

theorem sorted_sortByCountDesc (l : List (String × Nat)) :
    (sortByCountDesc l).Pairwise (fun a b => b.2 ≤ a.2) := by
  induction l with
  | nil => exact List.Pairwise.nil
  | cons p rest ih => exact pairwise_insertDesc p _ ih

/-- Counterexample to C8 as stated: on the entries tagged `["a","b"]`,
`["a"]` and `["b","b"]` the aggregation counts `b` three times (one
occurrence in the first entry and two in the third, with no in-entry
deduplication), not two as the claim asserts. -/
theorem tags_aggregation_cex :
    countOf (tagCounts tagEntries) "b" = 3 ∧
      countOf (tagCounts tagEntries) "b" ≠ 2 := by
  refine ⟨by decide, by decide⟩

theorem filter_eq_nil_of {α : Type} (p : α → Bool) (l : List α)
    (h : ∀ a ∈ l, p a = false) : l.filter p = [] := by
  induction l with
  | nil => rfl
  | cons a t ih =>
    simp only [List.filter_cons, h a (List.mem_cons_self a t),
      Bool.false_eq_true, if_false]
    exact ih (fun b hb => h b (List.mem_cons_of_mem a hb))

theorem bump_key_mem (m : List (String × Nat)) (t : String) (p : String × Nat)
    (hp : p ∈ bump m t) : p.1 = t ∨ ∃ q ∈ m, p.1 = q.1 := by
  induction m with
  | nil =>
    simp only [bump, List.mem_singleton] at hp
    exact Or.inl (by rw [hp])
  | cons q rest ih =>
    rcases q with ⟨k, n⟩
    by_cases hk : k = t
    · subst hk
      simp only [bump, if_pos rfl] at hp
      rcases List.mem_cons.mp hp with h1 | h1
      · exact Or.inl (by rw [h1])
      · exact Or.inr ⟨p, List.mem_cons_of_mem _ h1, rfl⟩
    · simp only [bump, if_neg hk] at hp
      rcases List.mem_cons.mp hp with h1 | h1
      · exact Or.inr ⟨(k, n), List.mem_cons_self _ _, by rw [h1]⟩
      · rcases ih h1 with h2 | ⟨q2, hq2, hq3⟩
        · exact Or.inl h2
        · exact Or.inr ⟨q2, List.mem_cons_of_mem _ hq2, hq3⟩

theorem foldl_bump_key_mem (ts : List String) :
    ∀ (m : List (String × Nat)) (p : String × Nat), p ∈ ts.foldl bump m →
      (∃ q ∈ m, p.1 = q.1) ∨ p.1 ∈ ts := by
  induction ts with
  | nil => intro m p hp; exact Or.inl ⟨p, hp, rfl⟩
  | cons x ts ih =>
    intro m p hp
    rw [List.foldl_cons] at hp
    rcases ih (bump m x) p hp with ⟨q, hq, hpq⟩ | h1
    · rcases bump_key_mem m x q hq with h2 | ⟨r, hr, hqr⟩
      · exact Or.inr (by rw [hpq, h2]; exact List.mem_cons_self x ts)
      · exact Or.inl ⟨r, hr, by rw [hpq, hqr]⟩
    · exact Or.inr (List.mem_cons_of_mem x h1)

theorem tagCounts_key_mem (entries : List Entry) :
    ∀ (m : List (String × Nat)) (p : String × Nat),
      p ∈ entries.foldl (fun m2 e => e.tags.foldl bump m2) m →
      (∃ q ∈ m, p.1 = q.1) ∨ p.1 ∈ (entries.map (fun e => e.tags)).flatten := by
  induction entries with
  | nil => intro m p hp; exact Or.inl ⟨p, hp, rfl⟩
  | cons e es ih =>
    intro m p hp
    rw [List.foldl_cons] at hp
    rcases ih (e.tags.foldl bump m) p hp with ⟨q, hq, hpq⟩ | h1
    · rcases foldl_bump_key_mem e.tags m q hq with ⟨r, hr, hqr⟩ | h2
      · exact Or.inl ⟨r, hr, by rw [hpq, hqr]⟩
      · refine Or.inr ?_
        rw [List.map_cons, List.flatten_cons, List.mem_append]
        exact Or.inl (by rw [hpq]; exact h2)
    · refine Or.inr ?_
      rw [List.map_cons, List.flatten_cons, List.mem_append]
      exact Or.inr h1

theorem objectEntries_of_no_index (m : List (String × Nat))
    (h : ∀ p ∈ m, isArrayIndex p.1 = false) : objectEntries m = m := by
  have h1 : m.filter (fun p => isArrayIndex p.1) = [] :=
    filter_eq_nil_of _ m h
  have h2 : m.filter (fun p => !isArrayIndex p.1) = m :=
    filter_eq_self_of _ m (fun p hp => by rw [h p hp]; rfl)
  rw [objectEntries, h1, h2]
  rfl

/-- C8 (amended): the tag aggregation counts every tag occurrence across all
entries without deduplicating repeated tags inside one entry (so the example
entries yield counts a:2 and b:3), and the result is sorted by descending
count; among equal counts the order follows the JS own-property enumeration
of the tag map — tags that are canonical integer strings come first in
ascending numeric order (so the numeric tag "2024" precedes the earlier-
encountered "zebra"), and the remaining tags keep first-encounter order; in
particular, when no tag is an integer-like string, count-ties are kept
exactly in first-encounter order. -/
theorem tags_aggregation :
    (∀ entries t, countOf (tagCounts entries) t
        = ((entries.map (fun e => e.tags)).flatten).count t) ∧
    (∀ entries, (allTags entries).Pairwise (fun a b => b.2 ≤ a.2)) ∧
    (∀ entries c, (allTags entries).filter (fun q => q.2 == c)
        = (objectEntries (tagCounts entries)).filter (fun q => q.2 == c)) ∧
    (∀ entries, (∀ t ∈ (entries.map (fun e => e.tags)).flatten,
        isArrayIndex t = false) →
      ∀ c, (allTags entries).filter (fun q => q.2 == c)
        = (tagCounts entries).filter (fun q => q.2 == c)) ∧
    allTags tagEntries = [("b", 3), ("a", 2)] ∧
    allTags idxEntries = [("2024", 1), ("zebra", 1)] := by
  refine ⟨?_, ?_, ?_, ?_, by decide, by decide⟩
  · intro entries t
    have := countOf_tagCounts_aux entries [] t
    simpa [tagCounts, countOf] using this
  · intro entries
    exact sorted_sortByCountDesc (objectEntries (tagCounts entries))
  · intro entries c
    exact filter_sortByCountDesc (objectEntries (tagCounts entries)) c
  · intro entries hidx c
    have hkeys : ∀ p ∈ tagCounts entries, isArrayIndex p.1 = false := by
      intro p hp
      rcases tagCounts_key_mem entries [] p hp with ⟨q, hq, _⟩ | h1
      · cases hq
      · exact hidx p.1 h1
    rw [allTags, objectEntries_of_no_index (tagCounts entries) hkeys]
    exact filter_sortByCountDesc (tagCounts entries) c

/-- Witness for C8 (amended): the example tags are not integer-like, so the
count-ties of their aggregation are kept in first-encounter order. -/
theorem tags_aggregation_witness :
    (∀ t ∈ (tagEntries.map (fun e => e.tags)).flatten, isArrayIndex t = false) ∧
    (∀ c, (allTags tagEntries).filter (fun q => q.2 == c)
        = (tagCounts tagEntries).filter (fun q => q.2 == c)) :=
  ⟨by decide, tags_aggregation.2.2.2.1 tagEntries (by decide)⟩

/-- Counterexample to C5 as stated: with the unrecognized date term
"not-a-date" the parser returns null, but the invoking find action does not
report any InvalidDateTerm failure: it silently drops the date filter and
returns the text-matching entries, the same result as searching with no
date filter at all. -/
theorem invalid_date_silent_cex :
    parseSearchDate ⟨2026, 2, 14⟩ "not-a-date" = none ∧
    findAction jsTest [e1] ⟨2026, 2, 14⟩ "*" (some "not-a-date") = [e1] ∧
    findAction jsTest [e1] ⟨2026, 2, 14⟩ "*" (some "not-a-date")
      = findAction jsTest [e1] ⟨2026, 2, 14⟩ "*" none := by
  refine ⟨by decide, by decide, by decide⟩

/-- C5 (amended): a date-filter string that is neither a localized
today/yesterday token nor parses under `yyyy-MM-dd` or `dd.MM.yyyy` makes
the date parser return null, and the find action then silently searches
with no date filter (no InvalidDateTerm failure is reported). -/
theorem invalid_date_silent (today : CalDay) (s : String)
    (h1 : lowerStr s ∉ todayTerms) (h2 : lowerStr s ∉ yesterdayTerms)
    (h3 : parseFormat1 s = none) (h4 : parseFormat2 s = none) :
    parseSearchDate today s = none ∧
    ∀ (test : String → String → Bool) entries query,
      findAction test entries today query (some s)
        = findAction test entries today query none := by
  have hp : parseSearchDate today s = none := by
    simp [parseSearchDate, h1, h2, h3, h4]
  refine ⟨hp, ?_⟩
  intro test entries query
  have hfm : findMatch test today query (some s)
      = findMatch test today query none := by
    funext e
    simp [findMatch, dateFilterOf, hp]
  rw [findAction, findAction, hfm]

/-- Witness for C5 (amended): the concrete term "garbage" is unrecognized,
parses to null, and find with it behaves exactly as find with no date
filter. -/
theorem invalid_date_silent_witness :
    (lowerStr "garbage" ∉ todayTerms) ∧ (lowerStr "garbage" ∉ yesterdayTerms) ∧
    parseFormat1 "garbage" = none ∧ parseFormat2 "garbage" = none ∧
    (parseSearchDate ⟨2026, 2, 14⟩ "garbage" = none ∧
      ∀ (test : String → String → Bool) entries query,
        findAction test entries ⟨2026, 2, 14⟩ query (some "garbage")
          = findAction test entries ⟨2026, 2, 14⟩ query none) :=
  ⟨by decide, by decide, by decide, by decide,
    invalid_date_silent ⟨2026, 2, 14⟩ "garbage" (by decide) (by decide)
      (by decide) (by decide)⟩

theorem find?_decomp (l : List Entry) (id : Nat) (entry : Entry)
    (h : l.find? (fun e => e.id = id) = some entry) :
    ∃ pre post, l = pre ++ entry :: post ∧ (∀ x ∈ pre, ¬ x.id = id) ∧
      entry.id = id ∧ ∀ f, updateFirst f l id = pre ++ f entry :: post := by
  induction l with
  | nil => simp [List.find?] at h
  | cons a t ih =>
    by_cases ha : a.id = id
    · have heq : a = entry := by
        have : (a :: t).find? (fun e => e.id = id) = some a := by
          simp [List.find?_cons, ha]
        rw [this] at h
        exact Option.some.inj h
      subst heq
      refine ⟨[], t, by simp, by simp, ha, fun f => by simp [updateFirst, ha]⟩
    · have ht : t.find? (fun e => e.id = id) = some entry := by
        have : (a :: t).find? (fun e => e.id = id)
            = t.find? (fun e => e.id = id) := by
          simp [List.find?_cons, ha]
        rw [this] at h
        exact h
      rcases ih ht with ⟨pre, post, hl, hpre, hid, hupd⟩
      refine ⟨a :: pre, post, by rw [hl]; rfl, ?_, hid, fun f => ?_⟩
      · intro x hx
        cases hx with
        | head => exact ha
        | tail _ hx2 => exact hpre x hx2
      · simp [updateFirst, ha, hupd f]

/-- C2: on an entry flagged encrypted, get with a password under which the
vault record decrypts increments exactly that entry's usage count by one,
returns the decrypted plaintext and leaves the vault and every other entry
unchanged; with a password under which decryption fails it reports a
wrong-password error and leaves the whole persisted state unchanged (the
increment happens only after successful decryption). -/
theorem get_encrypted_atomic (decFn : String → String → Option String)
    (s : MemState) (id : Nat) (pw : String) (entry : Entry) (blob : String)
    (hfind : s.entries.find? (fun e => e.id = id) = some entry)
    (henc : entry.encrypted = true)
    (hblob : lookupSecret s.secrets id = some blob) :
    (∀ pt, decFn blob pw = some pt →
      ∃ pre post, s.entries = pre ++ entry :: post ∧ (∀ x ∈ pre, ¬ x.id = id) ∧
        getAction decFn s id pw
          = (⟨pre ++ incUsage entry :: post, s.secrets⟩, Res.ok pt)) ∧
    (decFn blob pw = none →
      getAction decFn s id pw = (s, Res.err MemErr.wrongPassword)) := by
  constructor
  · intro pt hdec
    rcases find?_decomp s.entries id entry hfind with ⟨pre, post, hl, hpre, hid, hupd⟩
    refine ⟨pre, post, hl, hpre, ?_⟩
    simp only [getAction, hfind, henc, hblob, Option.some_bind, hdec, if_true]
    rw [hupd incUsage]
  · intro hdec
    simp only [getAction, hfind, henc, hblob, Option.some_bind, hdec, if_true]

/-- Witness for C2: on the concrete encrypted entry, get with the decrypting
password increments the usage count from 5 to 6 and returns the plaintext;
get with a non-decrypting password errors and leaves the state unchanged. -/
theorem get_encrypted_atomic_witness :
    getAction decFn0 s0 101 "pw"
      = (⟨[incUsage e0, e1], [(101, "BLOB")]⟩, Res.ok "SECRET") ∧
    getAction decFn0 s0 101 "bad" = (s0, Res.err MemErr.wrongPassword) :=
  ⟨by decide,
    (get_encrypted_atomic decFn0 s0 101 "bad" e0 "BLOB" (by decide) (by decide)
      (by decide)).2 (by decide)⟩

theorem nodup_map_id_inj (l : List Entry) (h : (l.map (fun e => e.id)).Nodup)
    (a b : Entry) (ha : a ∈ l) (hb : b ∈ l) (hid : a.id = b.id) : a = b := by
  induction l with
  | nil => cases ha
  | cons x t ih =>
    rw [List.map_cons, List.nodup_cons] at h
    cases ha with
    | head =>
      cases hb with
      | head => rfl
      | tail _ hb2 =>
        exact absurd (hid ▸ List.mem_map_of_mem (fun e => e.id) hb2) h.1
    | tail _ ha2 =>
      cases hb with
      | head =>
        exact absurd (hid ▸ List.mem_map_of_mem (fun e => e.id) ha2) h.1
      | tail _ hb2 => exact ih h.2 ha2 hb2

theorem triple_refl (s : MemState) (hInv : EncInv s) (hNodup : IdsNodup s) :
    EncInv s ∧ IdsNodup s ∧ FlagMono s s := by
  refine ⟨hInv, hNodup, ?_⟩
  intro e2 h2 e he hid henc
  rw [nodup_map_id_inj s.entries hNodup e2 e h2 he hid]
  exact henc

theorem triple_append (s : MemState) (e : Entry)
    (secrets2 : List (Nat × String)) (hide : e.id = getNextId s.entries)
    (hc : e.encrypted = true → e.content = sentinel)
    (hInv : EncInv s) (hNodup : IdsNodup s) :
    EncInv ⟨s.entries ++ [e], secrets2⟩ ∧ IdsNodup ⟨s.entries ++ [e], secrets2⟩ ∧
      FlagMono s ⟨s.entries ++ [e], secrets2⟩ := by
  refine ⟨?_, ?_, ?_⟩
  · intro e2 h2 henc
    rcases List.mem_append.mp h2 with h3 | h3
    · exact hInv e2 h3 henc
    · rw [List.mem_singleton.mp h3]
      rw [List.mem_singleton.mp h3] at henc
      exact hc henc
  · show ((s.entries ++ [e]).map (fun x => x.id)).Nodup
    rw [List.map_append]
    refine List.Nodup.append hNodup (List.nodup_singleton _) ?_
    intro x hx hx2
    rcases List.mem_map.mp hx with ⟨e3, he3, hid3⟩
    have hlt := id_lt_getNextId s.entries e3 he3
    rw [List.map_singleton, List.mem_singleton] at hx2
    rw [hx2, hide] at hid3
    rw [hid3] at hlt
    exact Nat.lt_irrefl _ hlt
  · intro e2 h2 e3 he3 hid henc
    rcases List.mem_append.mp h2 with h4 | h4
    · rw [nodup_map_id_inj s.entries hNodup e2 e3 h4 he3 hid]
      exact henc
    · have he2 : e2 = e := List.mem_singleton.mp h4
      have hlt := id_lt_getNextId s.entries e3 he3
      rw [← hid, he2, hide] at hlt
      exact absurd rfl (Nat.ne_of_lt hlt)

theorem updateFirst_mem_of_find (f : Entry → Entry) (l : List Entry)
    (id : Nat) (entry : Entry)
    (hf : l.find? (fun e => e.id = id) = some entry) (e2 : Entry)
    (h : e2 ∈ updateFirst f l id) : e2 ∈ l ∨ e2 = f entry := by
  rcases find?_decomp l id entry hf with ⟨pre, post, hl, _, _, hupd⟩
  rw [hupd f] at h
  rw [hl]
  rcases List.mem_append.mp h with h2 | h2
  · exact Or.inl (List.mem_append.mpr (Or.inl h2))
  · cases h2 with
    | head => exact Or.inr rfl
    | tail _ h3 =>
      exact Or.inl (List.mem_append.mpr (Or.inr (List.mem_cons_of_mem _ h3)))

theorem triple_updateFirst (s : MemState) (id : Nat) (entry : Entry)
    (f : Entry → Entry) (secrets2 : List (Nat × String))
    (hfind : s.entries.find? (fun e => e.id = id) = some entry)
    (hfid : (f entry).id = entry.id)
    (hfenc : (f entry).encrypted = entry.encrypted)
    (hfs : (f entry).encrypted = true → (f entry).content = sentinel)
    (hInv : EncInv s) (hNodup : IdsNodup s) :
    EncInv ⟨updateFirst f s.entries id, secrets2⟩ ∧
      IdsNodup ⟨updateFirst f s.entries id, secrets2⟩ ∧
      FlagMono s ⟨updateFirst f s.entries id, secrets2⟩ := by
  have hentry : entry ∈ s.entries := List.mem_of_find?_eq_some hfind
  rcases find?_decomp s.entries id entry hfind with ⟨pre, post, hl, hpre, hid2, hupd⟩
  have hmap : (updateFirst f s.entries id).map (fun e => e.id)
      = s.entries.map (fun e => e.id) := by
    rw [hupd f, hl]
    simp [hfid]
  refine ⟨?_, ?_, ?_⟩
  · intro e2 h2 henc
    rcases updateFirst_mem_of_find f s.entries id entry hfind e2 h2 with h3 | h3
    · exact hInv e2 h3 henc
    · rw [h3]; rw [h3] at henc; exact hfs henc
  · show ((updateFirst f s.entries id).map (fun e => e.id)).Nodup
    rw [hmap]
    exact hNodup
  · intro e2 h2 e3 he3 hid henc
    rcases updateFirst_mem_of_find f s.entries id entry hfind e2 h2 with h3 | h3
    · rw [nodup_map_id_inj s.entries hNodup e2 e3 h3 he3 hid]
      exact henc
    · have he23 : e3 = entry := by
        refine nodup_map_id_inj s.entries hNodup e3 entry he3 hentry ?_
        rw [← hid, h3, hfid]
      rw [h3, hfenc, ← he23]
      exact henc

theorem triple_filter (s : MemState) (id : Nat)
    (secrets2 : List (Nat × String)) (hInv : EncInv s) (hNodup : IdsNodup s) :
    EncInv ⟨s.entries.filter (fun e => e.id ≠ id), secrets2⟩ ∧
      IdsNodup ⟨s.entries.filter (fun e => e.id ≠ id), secrets2⟩ ∧
      FlagMono s ⟨s.entries.filter (fun e => e.id ≠ id), secrets2⟩ := by
  refine ⟨?_, ?_, ?_⟩
  · intro e2 h2 henc
    exact hInv e2 (List.mem_of_mem_filter h2) henc
  · show (((s.entries.filter (fun e => e.id ≠ id)).map (fun e => e.id))).Nodup
    exact List.Nodup.sublist
      (List.Sublist.map (fun e => e.id) (List.filter_sublist s.entries)) hNodup
  · intro e2 h2 e3 he3 hid henc
    rw [nodup_map_id_inj s.entries hNodup e2 e3 (List.mem_of_mem_filter h2) he3 hid]
    exact henc

/-- C3: the encrypted-entry invariant (every entry flagged encrypted stores
the sentinel placeholder, never plaintext) together with id distinctness is
preserved by every operation, and the encrypted flag of a surviving id is
never flipped back to false; in particular add establishes the sentinel for
encrypted entries, and edit of an encrypted entry replaces only the vault
ciphertext, leaving the stored placeholder content and the flag untouched. -/
theorem encrypted_entry_invariant (encFn : String → String → String)
    (decFn : String → String → Option String) (s : MemState) (op : MemOp)
    (hInv : EncInv s) (hNodup : IdsNodup s) :
    EncInv (applyOp encFn decFn s op) ∧ IdsNodup (applyOp encFn decFn s op) ∧
      FlagMono s (applyOp encFn decFn s op) := by
  cases op with
  | add c t ef p now =>
    by_cases hc : trimStr c = ""
    · simp only [applyOp, addAction, hc, if_true]
      exact triple_refl s hInv hNodup
    · cases ef with
      | true =>
        simp only [applyOp, addAction, hc, if_false, if_true]
        exact triple_append s _ _ rfl (fun _ => rfl) hInv hNodup
      | false =>
        simp only [applyOp, addAction, hc, if_false]
        exact triple_append s _ _ rfl (fun h => by cases h) hInv hNodup
  | get id pw =>
    rcases hf : s.entries.find? (fun e => e.id = id) with _ | entry
    · simp only [applyOp, getAction, hf]
      exact triple_refl s hInv hNodup
    · have hsent : (incUsage entry).encrypted = true →
          (incUsage entry).content = sentinel := fun h =>
        hInv entry (List.mem_of_find?_eq_some hf) h
      by_cases henc : entry.encrypted = true
      · rcases hd : (lookupSecret s.secrets id).bind (fun blob => decFn blob pw)
          with _ | pt
        · simp only [applyOp, getAction, hf, henc, if_true, hd]
          exact triple_refl s hInv hNodup
        · simp only [applyOp, getAction, hf, henc, if_true, hd]
          exact triple_updateFirst s id entry incUsage s.secrets hf rfl rfl
            hsent hInv hNodup
      · have henc2 : entry.encrypted = false := by
          cases h : entry.encrypted
          · rfl
          · exact absurd h henc
        simp only [applyOp, getAction, hf, henc2, Bool.false_eq_true, if_false]
        exact triple_updateFirst s id entry incUsage s.secrets hf rfl rfl
          hsent hInv hNodup
  | edit id pw nc nt np =>
    rcases hf : s.entries.find? (fun e => e.id = id) with _ | entry
    · simp only [applyOp, editAction, hf]
      exact triple_refl s hInv hNodup
    · by_cases henc : entry.encrypted = true
      · rcases hd : (lookupSecret s.secrets id).bind (fun blob => decFn blob pw)
          with _ | pt
        · simp only [applyOp, editAction, hf, henc, if_true, hd]
          exact triple_refl s hInv hNodup
        · simp only [applyOp, editAction, hf, henc, if_true, hd]
          refine triple_updateFirst s id entry _ _ hf rfl rfl ?_ hInv hNodup
          intro h
          exact hInv entry (List.mem_of_find?_eq_some hf) h
      · have henc2 : entry.encrypted = false := by
          cases h : entry.encrypted
          · rfl
          · exact absurd h henc
        simp only [applyOp, editAction, hf, henc2, Bool.false_eq_true, if_false]
        refine triple_updateFirst s id entry _ _ hf rfl rfl ?_ hInv hNodup
        intro h
        exact absurd h (by simp [henc2])
  | del id =>
    simp only [applyOp, deleteAction, eraseSecret]
    exact triple_filter s id _ hInv hNodup
  | findQ today q dOpt => exact triple_refl s hInv hNodup
  | tagsQ => exact triple_refl s hInv hNodup

/-- Witness for C3: on the concrete state, getting the encrypted entry with
the right password preserves the invariant, id distinctness and the flag. -/
theorem encrypted_entry_invariant_witness :
    EncInv s0 ∧ IdsNodup s0 ∧
      (EncInv (applyOp encFn0 decFn0 s0 (MemOp.get 101 "pw")) ∧
        IdsNodup (applyOp encFn0 decFn0 s0 (MemOp.get 101 "pw")) ∧
        FlagMono s0 (applyOp encFn0 decFn0 s0 (MemOp.get 101 "pw"))) :=
  ⟨by unfold EncInv; decide, by unfold IdsNodup; decide,
    encrypted_entry_invariant encFn0 decFn0 s0 (MemOp.get 101 "pw")
      (by unfold EncInv; decide) (by unfold IdsNodup; decide)⟩

theorem runAlts_dotstar (s : List Char) :
    ∀ rest : List (List RAtom),
      ((runAlts ([RAtom.star SAtom.any, RAtom.star SAtom.any,
        RAtom.star SAtom.any] :: rest) s).any nullableSeq) = true := by
  induction s with
  | nil =>
    intro rest
    simp [runAlts, nullableSeq]
  | cons c cs ih =>
    intro rest
    have hstep : stepAlts ([RAtom.star SAtom.any, RAtom.star SAtom.any,
        RAtom.star SAtom.any] :: rest) c
        = [RAtom.star SAtom.any, RAtom.star SAtom.any, RAtom.star SAtom.any] ::
          (derivSeq [RAtom.star SAtom.any, RAtom.star SAtom.any] c
            ++ stepAlts rest c) := by
      simp [stepAlts, derivSeq, satomMatch]
    rw [runAlts, hstep]
    exact ih _

theorem jsTest_star : MatchesAllStar jsTest := by
  intro s
  have hp : parseAtoms (compilePattern "*").data []
      = some [RAtom.star SAtom.any] := rfl
  simp only [jsTest, hp]
  exact runAlts_dotstar s.data []

theorem findMatch_iff (test : String → String → Bool) (today : CalDay)
    (query : String) (dateOpt : Option String) (e : Entry) :
    findMatch test today query dateOpt e = true ↔
      (test (compilePattern query) e.content = true ∨
        ∃ t ∈ e.tags, test (compilePattern query) t = true) ∧
      (∀ fd, dateFilterOf today dateOpt = some fd → e.timestamp = fd) := by
  cases hdf : dateFilterOf today dateOpt with
  | none =>
    simp [findMatch, hdf, List.any_eq_true]
  | some fd =>
    simp only [findMatch, hdf, Bool.and_eq_true, Bool.or_eq_true,
      List.any_eq_true, beq_iff_eq]
    constructor
    · rintro ⟨htext, hdate⟩
      exact ⟨htext, fun fd2 hfd2 => by rw [← Option.some.inj hfd2]; exact hdate⟩
    · rintro ⟨htext, hdate⟩
      exact ⟨htext, hdate fd rfl⟩

/-- C4: the find action compiles the pattern by replacing every star with
dot-star (all other characters passed to the regex engine verbatim) and
filters with the case-insensitive engine: for every regex engine `test`
(standing for `new RegExp(pattern, "i").test`, JS library code modelled as
an explicit collaborator parameter), an entry is kept exactly when the
compiled pattern matches its content or one of its tags and, when a date
filter is present, its timestamp falls on that calendar day; the result is
a sublist of the input (order preserved, never re-sorted); and for every
engine in which the compiled match-everything pattern ".*" matches every
string — as it does in the JS engine — pattern "*" with no date filter
returns the whole input list. -/
theorem find_semantics (test : String → String → Bool) :
    (∀ entries today query dateOpt (e : Entry),
      e ∈ findAction test entries today query dateOpt ↔
        e ∈ entries ∧
          ((test (compilePattern query) e.content = true ∨
            ∃ t ∈ e.tags, test (compilePattern query) t = true) ∧
          (∀ fd, dateFilterOf today dateOpt = some fd → e.timestamp = fd))) ∧
    (∀ entries today query dateOpt,
      (findAction test entries today query dateOpt).Sublist entries) ∧
    (MatchesAllStar test →
      ∀ entries today, findAction test entries today "*" none = entries) := by
  refine ⟨?_, ?_, ?_⟩
  · intro entries today query dateOpt e
    rw [findAction, List.mem_filter, findMatch_iff]
  · intro entries today query dateOpt
    exact List.filter_sublist entries
  · intro htest entries today
    have hall : ∀ e, findMatch test today "*" none e = true := by
      intro e
      simp only [findMatch, dateFilterOf, Bool.and_eq_true, Bool.or_eq_true]
      exact ⟨Or.inl (htest e.content), trivial⟩
    rw [findAction]
    exact filter_eq_self_of _ entries (fun a _ => hall a)

/-- Witness for C4: the concrete fragment engine matches everything under
the compiled "*", and find with pattern "*" and no date filter under it
returns the whole concrete two-entry store unchanged. -/
theorem find_semantics_witness :
    MatchesAllStar jsTest ∧
    findAction jsTest [e0, e1] ⟨2026, 2, 14⟩ "*" none = [e0, e1] :=
  ⟨jsTest_star, (find_semantics jsTest).2.2 jsTest_star [e0, e1] ⟨2026, 2, 14⟩⟩

theorem hexVal_hexDigit (n : Nat) (h : n < 16) : hexVal (hexDigit n) = some n := by
  have hfin : ∀ m : Fin 16, hexVal (hexDigit m.val) = some m.val := by decide
  exact hfin ⟨n, h⟩

theorem hexDigit_ne_colon (n : Nat) (h : n < 16) : hexDigit n ≠ ':' := by
  have hfin : ∀ m : Fin 16, hexDigit m.val ≠ ':' := by decide
  exact hfin ⟨n, h⟩

theorem hexChars_cons (b : Nat) (bs : List Nat) :
    hexChars (b :: bs) = hexDigit (b / 16) :: hexDigit (b % 16) :: hexChars bs := rfl

theorem hexDecode_hexChars (bs : List Nat) (h : ∀ x ∈ bs, x < 256) :
    hexDecode (hexChars bs) = bs := by
  induction bs with
  | nil => rfl
  | cons b t ih =>
    have hb : b < 256 := h b (List.mem_cons_self b t)
    have hdiv : b / 16 < 16 := by omega
    have hmod : b % 16 < 16 := Nat.mod_lt b (by omega)
    rw [hexChars_cons, hexDecode, hexVal_hexDigit _ hdiv, hexVal_hexDigit _ hmod]
    have hrec : b = 16 * (b / 16) + b % 16 := by omega
    rw [ih (fun x hx => h x (List.mem_cons_of_mem b hx))]
    exact congrArg (· :: t) (by omega)

theorem colon_notin_hexChars (bs : List Nat) (h : ∀ x ∈ bs, x < 256) :
    ':' ∉ hexChars bs := by
  induction bs with
  | nil => simp [hexChars]
  | cons b t ih =>
    have hb : b < 256 := h b (List.mem_cons_self b t)
    rw [hexChars_cons]
    intro hmem
    rcases List.mem_cons.mp hmem with h1 | hmem2
    · exact hexDigit_ne_colon (b / 16) (by omega) h1.symm
    · rcases List.mem_cons.mp hmem2 with h2 | hmem3
      · exact hexDigit_ne_colon (b % 16) (Nat.mod_lt b (by omega)) h2.symm
      · exact ih (fun x hx => h x (List.mem_cons_of_mem b hx)) hmem3

theorem hexChars_length (bs : List Nat) : (hexChars bs).length = 2 * bs.length := by
  induction bs with
  | nil => rfl
  | cons b t ih => rw [hexChars_cons]; simp [ih]; omega

theorem splitOnChar_ne_nil (sep : Char) (l : List Char) :
    splitOnChar sep l ≠ [] := by
  cases l with
  | nil => simp [splitOnChar]
  | cons c rest =>
    rw [splitOnChar]
    rcases h : splitOnChar sep rest with _ | ⟨g, gs⟩
    · simp
    · by_cases hc : c = sep <;> simp [hc]

theorem splitOnChar_single (sep : Char) (l : List Char) (h : sep ∉ l) :
    splitOnChar sep l = [l] := by
  induction l with
  | nil => rfl
  | cons c rest ih =>
    have hc : c ≠ sep := fun hh => h (hh ▸ List.mem_cons_self c rest)
    have hrest : sep ∉ rest := fun hh => h (List.mem_cons_of_mem c hh)
    rw [splitOnChar, ih hrest]
    simp [hc]

theorem splitOnChar_append (sep : Char) (a rest : List Char) (h : sep ∉ a) :
    splitOnChar sep (a ++ sep :: rest) = a :: splitOnChar sep rest := by
  induction a with
  | nil =>
    rw [List.nil_append, splitOnChar]
    rcases h2 : splitOnChar sep rest with _ | ⟨g, gs⟩
    · exact absurd h2 (splitOnChar_ne_nil sep rest)
    · simp
  | cons c a2 ih =>
    have hc : c ≠ sep := fun hh => h (hh ▸ List.mem_cons_self c a2)
    have ha2 : sep ∉ a2 := fun hh => h (List.mem_cons_of_mem c hh)
    have hstep := ih ha2
    rw [List.cons_append, splitOnChar, hstep]
    simp [hc]

theorem chunksAux_cons_eq (n : Nat) (b : Nat) (t : List Nat) :
    chunksAux (n + 1) (b :: t)
      = (b :: t).take 16 :: chunksAux n ((b :: t).drop 16) := rfl

theorem chunksAux_fuel (f1 : Nat) : ∀ (f2 : Nat) (bs : List Nat),
    bs.length ≤ f1 → bs.length ≤ f2 → chunksAux f1 bs = chunksAux f2 bs := by
  induction f1 with
  | zero =>
    intro f2 bs h1 h2
    have : bs = [] := List.eq_nil_of_length_eq_zero (Nat.le_zero.mp h1)
    subst this
    cases f2 <;> rfl
  | succ f ih =>
    intro f2 bs h1 h2
    cases bs with
    | nil => cases f2 <;> rfl
    | cons b t =>
      cases f2 with
      | zero => simp at h2
      | succ f2p =>
        rw [chunksAux_cons_eq, chunksAux_cons_eq]
        simp only [List.length_cons] at h1 h2
        have hd : ((b :: t).drop 16).length ≤ f := by
          simp only [List.length_drop, List.length_cons]
          omega
        have hd2 : ((b :: t).drop 16).length ≤ f2p := by
          simp only [List.length_drop, List.length_cons]
          omega
        rw [ih f2p _ hd hd2]

theorem chunksAux_spec (f : Nat) : ∀ bs : List Nat, bs.length ≤ f →
    bs.length % 16 = 0 →
    (chunksAux f bs).flatten = bs ∧
      ∀ b ∈ chunksAux f bs, b.length = 16 ∧ ∀ x ∈ b, x ∈ bs := by
  induction f with
  | zero =>
    intro bs h1 h2
    have : bs = [] := List.eq_nil_of_length_eq_zero (Nat.le_zero.mp h1)
    subst this
    exact ⟨rfl, by simp [chunksAux]⟩
  | succ f ih =>
    intro bs h1 h2
    cases bs with
    | nil => exact ⟨rfl, by simp [chunksAux]⟩
    | cons b t =>
      simp only [List.length_cons] at h1 h2
      have hlen : t.length + 1 ≥ 16 := by omega
      have hdf : ((b :: t).drop 16).length ≤ f := by
        simp only [List.length_drop, List.length_cons]
        omega
      have hdm : ((b :: t).drop 16).length % 16 = 0 := by
        simp only [List.length_drop, List.length_cons]
        omega
      rcases ih ((b :: t).drop 16) hdf hdm with ⟨hflat, hmem⟩
      rw [chunksAux_cons_eq]
      constructor
      · rw [List.flatten_cons, hflat]
        exact List.take_append_drop 16 (b :: t)
      · intro blk hblk
        rcases List.mem_cons.mp hblk with hb | hb
        · subst hb
          refine ⟨by simp only [List.length_take, List.length_cons]; omega, ?_⟩
          intro x hx
          exact List.mem_of_mem_take hx
        · rcases hmem blk hb with ⟨hl, hx⟩
          exact ⟨hl, fun x hxx => List.mem_of_mem_drop (hx x hxx)⟩

theorem chunks16_spec (bs : List Nat) (h : bs.length % 16 = 0) :
    (chunks16 bs).flatten = bs ∧
      ∀ b ∈ chunks16 bs, b.length = 16 ∧ ∀ x ∈ b, x ∈ bs :=
  chunksAux_spec bs.length bs (Nat.le_refl _) h

theorem chunks16_append_block (b rest : List Nat) (hb : b.length = 16) :
    chunks16 (b ++ rest) = b :: chunks16 rest := by
  cases b with
  | nil => simp at hb
  | cons x xs =>
    have hlen : ((x :: xs) ++ rest).length = 16 + rest.length := by
      rw [List.length_append, hb]
    rw [chunks16, hlen]
    have h16 : (16 : Nat) + rest.length = (15 + rest.length) + 1 := by omega
    rw [h16]
    have hcons : (x :: xs) ++ rest = x :: (xs ++ rest) := rfl
    rw [hcons, chunksAux_cons_eq, ← hcons]
    have htake : ((x :: xs) ++ rest).take 16 = x :: xs := by
      have := List.take_left (x :: xs) rest
      rwa [hb] at this
    have hdrop : ((x :: xs) ++ rest).drop 16 = rest := by
      have := List.drop_left (x :: xs) rest
      rwa [hb] at this
    rw [htake, hdrop, chunksAux_fuel (15 + rest.length) rest.length rest
      (by omega) (Nat.le_refl _)]
    rfl

theorem chunks16_flatten_blocks (blocks : List (List Nat))
    (h : ∀ b ∈ blocks, b.length = 16) : chunks16 blocks.flatten = blocks := by
  induction blocks with
  | nil => rfl
  | cons b t ih =>
    rw [List.flatten_cons,
      chunks16_append_block b t.flatten (h b (List.mem_cons_self b t)),
      ih (fun x hx => h x (List.mem_cons_of_mem b hx))]

theorem flatten_length_blocks (blocks : List (List Nat))
    (h : ∀ b ∈ blocks, b.length = 16) :
    blocks.flatten.length = 16 * blocks.length := by
  induction blocks with
  | nil => rfl
  | cons b t ih =>
    rw [List.flatten_cons, List.length_append, h b (List.mem_cons_self b t),
      ih (fun x hx => h x (List.mem_cons_of_mem b hx))]
    simp [Nat.mul_succ, List.length_cons]
    omega

theorem zipXor_length (a b : List Nat) :
    (zipXor a b).length = min a.length b.length := List.length_zipWith _ _ _

theorem zipXor_zipXor (a : List Nat) : ∀ b : List Nat, a.length = b.length →
    zipXor a (zipXor a b) = b := by
  induction a with
  | nil =>
    intro b h
    have : b = [] := List.eq_nil_of_length_eq_zero h.symm
    subst this; rfl
  | cons x xs ih =>
    intro b h
    cases b with
    | nil => simp at h
    | cons y ys =>
      simp only [zipXor, List.zipWith_cons_cons]
      rw [Nat.xor_cancel_left]
      have := ih ys (by simpa using h)
      simp only [zipXor] at this
      rw [this]

theorem zipXor_lt (a : List Nat) : ∀ b : List Nat, (∀ x ∈ a, x < 256) →
    (∀ x ∈ b, x < 256) → ∀ y ∈ zipXor a b, y < 256 := by
  induction a with
  | nil => intro b _ _ y hy; simp [zipXor] at hy
  | cons x xs ih =>
    intro b ha hb y hy
    cases b with
    | nil => simp [zipXor] at hy
    | cons z zs =>
      simp only [zipXor, List.zipWith_cons_cons] at hy
      rcases List.mem_cons.mp hy with h1 | h1
      · have hx : x < 2 ^ 8 := ha x (List.mem_cons_self x xs)
        have hz : z < 2 ^ 8 := hb z (List.mem_cons_self z zs)
        rw [h1]
        exact Nat.xor_lt_two_pow hx hz
      · exact ih zs (fun u hu => ha u (List.mem_cons_of_mem x hu))
          (fun u hu => hb u (List.mem_cons_of_mem z hu)) y h1

theorem cbcEnc_blocks (C : BlockCipher) (hC : GoodCipher C) (key : List Nat) :
    ∀ (blocks : List (List Nat)) (iv : List Nat), iv.length = 16 →
      (∀ x ∈ iv, x < 256) →
      (∀ b ∈ blocks, b.length = 16 ∧ ∀ x ∈ b, x < 256) →
      ∀ c ∈ cbcEnc C key iv blocks, c.length = 16 ∧ ∀ y ∈ c, y < 256 := by
  intro blocks
  induction blocks with
  | nil => intro iv _ _ _ c hc; simp [cbcEnc] at hc
  | cons b bs ih =>
    intro iv hivl hivb hblocks c hc
    rcases hblocks b (List.mem_cons_self b bs) with ⟨hbl, hbb⟩
    have hxl : (zipXor iv b).length = 16 := by
      rw [zipXor_length, hivl, hbl]
      exact Nat.min_self 16
    have hxb : ∀ x ∈ zipXor iv b, x < 256 := zipXor_lt iv b hivb hbb
    have hcl : (C.enc key (zipXor iv b)).length = 16 := hC.enc_len key _ hxl
    have hcb : ∀ y ∈ C.enc key (zipXor iv b), y < 256 :=
      hC.enc_lt key _ hxl hxb
    simp only [cbcEnc] at hc
    rcases List.mem_cons.mp hc with h1 | h1
    · subst h1; exact ⟨hcl, hcb⟩
    · exact ih (C.enc key (zipXor iv b)) hcl hcb
        (fun x hx => hblocks x (List.mem_cons_of_mem b hx)) c h1

theorem cbcDec_cbcEnc (C : BlockCipher) (hC : GoodCipher C) (key : List Nat) :
    ∀ (blocks : List (List Nat)) (iv : List Nat), iv.length = 16 →
      (∀ b ∈ blocks, b.length = 16) →
      cbcDec C key iv (cbcEnc C key iv blocks) = blocks := by
  intro blocks
  induction blocks with
  | nil => intro iv _ _; rfl
  | cons b bs ih =>
    intro iv hivl hblocks
    have hbl : b.length = 16 := hblocks b (List.mem_cons_self b bs)
    have hxl : (zipXor iv b).length = 16 := by
      rw [zipXor_length, hivl, hbl]
      exact Nat.min_self 16
    have hcl : (C.enc key (zipXor iv b)).length = 16 := hC.enc_len key _ hxl
    simp only [cbcEnc, cbcDec]
    rw [hC.dec_enc key _ hxl,
      zipXor_zipXor iv b (by rw [hivl, hbl]),
      ih (C.enc key (zipXor iv b)) hcl
        (fun x hx => hblocks x (List.mem_cons_of_mem b hx))]

theorem pad16_length (bs : List Nat) :
    (pad16 bs).length = bs.length + (16 - bs.length % 16) := by
  rw [pad16, List.length_append, List.length_replicate]

theorem pad16_mod (bs : List Nat) : (pad16 bs).length % 16 = 0 := by
  rw [pad16_length]
  have : bs.length % 16 < 16 := Nat.mod_lt _ (by omega)
  omega

theorem pad16_ne_nil (bs : List Nat) : pad16 bs ≠ [] := by
  intro h
  have h2 := congrArg List.length h
  rw [pad16_length] at h2
  have : bs.length % 16 < 16 := Nat.mod_lt _ (by omega)
  simp at h2
  omega

theorem pad16_lt (bs : List Nat) (h : ∀ x ∈ bs, x < 256) :
    ∀ x ∈ pad16 bs, x < 256 := by
  intro x hx
  rcases List.mem_append.mp hx with h1 | h1
  · exact h x h1
  · have := List.eq_of_mem_replicate h1
    subst this
    have : bs.length % 16 < 16 := Nat.mod_lt _ (by omega)
    omega

theorem getLast?_replicate_succ (k : Nat) (a : Nat) :
    (List.replicate (k + 1) a).getLast? = some a := by
  rw [List.replicate_succ', List.getLast?_append_of_ne_nil _ (by simp)]
  rfl

theorem unpad_pad16 (bs : List Nat) : unpad (pad16 bs) = some bs := by
  have hmlt : bs.length % 16 < 16 := Nat.mod_lt _ (by omega)
  have hn1 : 1 ≤ 16 - bs.length % 16 := by omega
  have hrep : List.replicate (16 - bs.length % 16) (16 - bs.length % 16) ≠ [] := by
    intro h
    have := congrArg List.length h
    simp [List.length_replicate] at this
    omega
  have hlast : (pad16 bs).getLast? = some (16 - bs.length % 16) := by
    rw [pad16, List.getLast?_append_of_ne_nil _ hrep]
    rcases Nat.exists_eq_add_of_le hn1 with ⟨k, hk⟩
    rw [hk]
    have : 1 + k = k + 1 := by omega
    rw [this]
    exact getLast?_replicate_succ k _
  have hlen := pad16_length bs
  have hcond : 1 ≤ 16 - bs.length % 16 ∧ 16 - bs.length % 16 ≤ 16 ∧
      16 - bs.length % 16 ≤ (pad16 bs).length ∧
      ((pad16 bs).drop ((pad16 bs).length - (16 - bs.length % 16))).all
        (fun x => x == 16 - bs.length % 16) = true := by
    refine ⟨hn1, by omega, by omega, ?_⟩
    have hdrop : (pad16 bs).drop ((pad16 bs).length - (16 - bs.length % 16))
        = List.replicate (16 - bs.length % 16) (16 - bs.length % 16) := by
      have harg : (pad16 bs).length - (16 - bs.length % 16) = bs.length := by
        omega
      rw [harg, pad16]
      exact List.drop_left bs _
    rw [hdrop]
    simp only [List.all_eq_true, beq_iff_eq]
    intro x hx
    exact List.eq_of_mem_replicate hx
  have htake : (pad16 bs).take ((pad16 bs).length - (16 - bs.length % 16)) = bs := by
    have harg : (pad16 bs).length - (16 - bs.length % 16) = bs.length := by
      omega
    rw [harg, pad16]
    exact List.take_left bs _
  have hred : unpad (pad16 bs)
      = if 1 ≤ 16 - bs.length % 16 ∧ 16 - bs.length % 16 ≤ 16 ∧
            16 - bs.length % 16 ≤ (pad16 bs).length ∧
            ((pad16 bs).drop ((pad16 bs).length - (16 - bs.length % 16))).all
              (fun x => x == 16 - bs.length % 16) = true
        then some ((pad16 bs).take ((pad16 bs).length - (16 - bs.length % 16)))
        else none := by
    rw [unpad, hlast]
  rw [hred, if_pos hcond, htake]

theorem decrypt_encrypt_eq (C : BlockCipher) (hC : GoodCipher C)
    (kdf : String → List Nat → List Nat) (text : List Nat) (pw pw2 : String)
    (salt iv : List Nat) (htb : ∀ x ∈ text, x < 256)
    (hsl : salt.length = 16) (hsb : ∀ x ∈ salt, x < 256)
    (hil : iv.length = 16) (hib : ∀ x ∈ iv, x < 256) :
    decrypt C kdf (encrypt C kdf text pw salt iv) pw2
      = unpad ((cbcDec C (kdf pw2 salt) iv
          (cbcEnc C (kdf pw salt) iv (chunks16 (pad16 text)))).flatten) := by
  have hchunks := chunks16_spec (pad16 text) (pad16_mod text)
  have hblocks16 : ∀ b ∈ chunks16 (pad16 text), b.length = 16 :=
    fun b hb => (hchunks.2 b hb).1
  have hblockslt : ∀ b ∈ chunks16 (pad16 text), ∀ x ∈ b, x < 256 :=
    fun b hb x hx => pad16_lt text htb x ((hchunks.2 b hb).2 x hx)
  have hcts : ∀ c ∈ cbcEnc C (kdf pw salt) iv (chunks16 (pad16 text)),
      c.length = 16 ∧ ∀ y ∈ c, y < 256 :=
    cbcEnc_blocks C hC (kdf pw salt) (chunks16 (pad16 text)) iv hil hib
      (fun b hb => ⟨hblocks16 b hb, hblockslt b hb⟩)
  have hctslen : ∀ c ∈ cbcEnc C (kdf pw salt) iv (chunks16 (pad16 text)),
      c.length = 16 := fun c hc => (hcts c hc).1
  have hctlt : ∀ x ∈ (cbcEnc C (kdf pw salt) iv (chunks16 (pad16 text))).flatten,
      x < 256 := by
    intro x hx
    rcases List.mem_flatten.mp hx with ⟨c, hc, hxc⟩
    exact (hcts c hc).2 x hxc
  have hctlen : (cbcEnc C (kdf pw salt) iv (chunks16 (pad16 text))).flatten.length
      = 16 * (cbcEnc C (kdf pw salt) iv (chunks16 (pad16 text))).length :=
    flatten_length_blocks _ hctslen
  have hbne : chunks16 (pad16 text) ≠ [] := by
    intro h
    have h2 := hchunks.1
    rw [h] at h2
    exact pad16_ne_nil text h2.symm
  have hctsne : cbcEnc C (kdf pw salt) iv (chunks16 (pad16 text)) ≠ [] := by
    cases hb : chunks16 (pad16 text) with
    | nil => exact absurd hb hbne
    | cons b bs => simp [cbcEnc]
  have hctspos : 1 ≤ (cbcEnc C (kdf pw salt) iv (chunks16 (pad16 text))).length :=
    List.length_pos.mpr hctsne
  have hct0 : (cbcEnc C (kdf pw salt) iv (chunks16 (pad16 text))).flatten.length ≠ 0 := by
    rw [hctlen]; omega
  have hctm : (cbcEnc C (kdf pw salt) iv (chunks16 (pad16 text))).flatten.length % 16 = 0 := by
    rw [hctlen]; omega
  have hdata : (encrypt C kdf text pw salt iv).data
      = hexChars salt ++ ':' ::
          (hexChars iv ++ ':' ::
            hexChars (cbcEnc C (kdf pw salt) iv (chunks16 (pad16 text))).flatten) := by
    simp [encrypt, List.append_assoc]
  have hsplit : splitOnChar ':' (encrypt C kdf text pw salt iv).data
      = [hexChars salt, hexChars iv,
          hexChars (cbcEnc C (kdf pw salt) iv (chunks16 (pad16 text))).flatten] := by
    rw [hdata, splitOnChar_append ':' _ _ (colon_notin_hexChars salt hsb),
      splitOnChar_append ':' _ _ (colon_notin_hexChars iv hib),
      splitOnChar_single ':' _ (colon_notin_hexChars _ hctlt)]
  have hdec : decrypt C kdf (encrypt C kdf text pw salt iv) pw2
      = decryptFields C kdf (hexChars salt) (hexChars iv)
          (hexChars (cbcEnc C (kdf pw salt) iv (chunks16 (pad16 text))).flatten) pw2 := by
    rw [decrypt, hsplit]
  rw [hdec]
  have hchct : chunks16 (cbcEnc C (kdf pw salt) iv (chunks16 (pad16 text))).flatten
      = cbcEnc C (kdf pw salt) iv (chunks16 (pad16 text)) :=
    chunks16_flatten_blocks _ hctslen
  simp only [decryptFields, hexDecode_hexChars salt hsb,
    hexDecode_hexChars iv hib, hexDecode_hexChars _ hctlt]
  rw [if_pos ⟨hil, hct0, hctm⟩, hchct]

/-- C1: crypto round trip.  Decrypting an encryption under the same password
returns exactly the plaintext, for every non-empty plaintext and every
password (stated over the embedded CBC construction with the block cipher
and the scrypt derivation as explicit parameters and the fresh 16-byte
salt and IV explicit); and decryption of that blob under any other password
returns the failure signal whenever the padding check on the resulting
garbage plaintext fails — the overwhelming-probability event for a wrong
password, and the only way the construction can signal failure. -/
theorem crypto_roundtrip (C : BlockCipher) (hC : GoodCipher C)
    (kdf : String → List Nat → List Nat) (text : List Nat) (pw : String)
    (salt iv : List Nat) (htext : text ≠ []) (htb : ∀ x ∈ text, x < 256)
    (hsl : salt.length = 16) (hsb : ∀ x ∈ salt, x < 256)
    (hil : iv.length = 16) (hib : ∀ x ∈ iv, x < 256) :
    decrypt C kdf (encrypt C kdf text pw salt iv) pw = some text ∧
    ∀ pw2, unpad ((cbcDec C (kdf pw2 salt) iv
        (cbcEnc C (kdf pw salt) iv (chunks16 (pad16 text)))).flatten) = none →
      decrypt C kdf (encrypt C kdf text pw salt iv) pw2 = none := by
  constructor
  · rw [decrypt_encrypt_eq C hC kdf text pw pw salt iv htb hsl hsb hil hib]
    have hblocks16 : ∀ b ∈ chunks16 (pad16 text), b.length = 16 :=
      fun b hb => ((chunks16_spec (pad16 text) (pad16_mod text)).2 b hb).1
    rw [cbcDec_cbcEnc C hC (kdf pw salt) (chunks16 (pad16 text)) iv hil hblocks16,
      (chunks16_spec (pad16 text) (pad16_mod text)).1, unpad_pad16]
  · intro pw2 hfail
    rw [decrypt_encrypt_eq C hC kdf text pw pw2 salt iv htb hsl hsb hil hib]
    exact hfail

theorem toyKey_length (k : List Nat) : (toyKey k).length = 16 := by
  rw [toyKey, List.length_take, List.length_append, List.length_replicate]
  omega

theorem toyKey_lt (k : List Nat) : ∀ x ∈ toyKey k, x < 256 := by
  intro x hx
  have hx2 := List.mem_of_mem_take hx
  rcases List.mem_append.mp hx2 with h1 | h1
  · rcases List.mem_map.mp h1 with ⟨y, _, hy⟩
    rw [← hy]
    exact Nat.mod_lt y (by omega)
  · rw [List.eq_of_mem_replicate h1]
    omega

theorem toyCipher_good : GoodCipher toyCipher := by
  refine ⟨?_, ?_, ?_⟩
  · intro k b hb
    show (zipXor (toyKey k) b).length = 16
    rw [zipXor_length, toyKey_length k, hb]
    exact Nat.min_self 16
  · intro k b hb hlt
    exact zipXor_lt (toyKey k) b (toyKey_lt k) hlt
  · intro k b hb
    show zipXor (toyKey k) (zipXor (toyKey k) b) = b
    exact zipXor_zipXor (toyKey k) b (by rw [toyKey_length k, hb])

/-- Witness for C1: with the concrete example cipher and key derivation,
encrypting the two bytes of "hi" under password "pw" with concrete salt and
IV decrypts back to exactly those bytes under "pw", and decrypts to the
failure signal under the different password "xx". -/
theorem crypto_roundtrip_witness :
    decrypt toyCipher toyKdf
      (encrypt toyCipher toyKdf [104, 105] "pw"
        (List.replicate 16 1) (List.replicate 16 2)) "pw" = some [104, 105] ∧
    decrypt toyCipher toyKdf
      (encrypt toyCipher toyKdf [104, 105] "pw"
        (List.replicate 16 1) (List.replicate 16 2)) "xx" = none :=
  ⟨(crypto_roundtrip toyCipher toyCipher_good toyKdf [104, 105] "pw"
      (List.replicate 16 1) (List.replicate 16 2) (by decide) (by decide)
      (by decide) (by decide) (by decide) (by decide)).1,
    (crypto_roundtrip toyCipher toyCipher_good toyKdf [104, 105] "pw"
      (List.replicate 16 1) (List.replicate 16 2) (by decide) (by decide)
      (by decide) (by decide) (by decide) (by decide)).2 "xx" (by decide)⟩

theorem encrypt_data_eq (C : BlockCipher) (kdf : String → List Nat → List Nat)
    (text : List Nat) (pw : String) (salt iv : List Nat) :
    (encrypt C kdf text pw salt iv).data
      = hexChars salt ++ ':' ::
          (hexChars iv ++ ':' ::
            hexChars (cbcEnc C (kdf pw salt) iv (chunks16 (pad16 text))).flatten) := by
  simp [encrypt, List.append_assoc]

/-- C9: encryption freshness.  Two encryptions of the same plaintext under
the same password with distinct sampled salt/IV pairs always produce
distinct ciphertext blobs, because the salt and the IV are hex-encoded into
fixed-width leading fields of the blob. -/
theorem encrypt_distinct (C : BlockCipher) (kdf : String → List Nat → List Nat)
    (text : List Nat) (pw : String) (salt1 iv1 salt2 iv2 : List Nat)
    (hs1 : salt1.length = 16) (hb1 : ∀ x ∈ salt1, x < 256)
    (hib1 : ∀ x ∈ iv1, x < 256)
    (hs2 : salt2.length = 16) (hb2 : ∀ x ∈ salt2, x < 256)
    (hi1 : iv1.length = 16) (hi2 : iv2.length = 16)
    (hib2 : ∀ x ∈ iv2, x < 256)
    (hne : salt1 ≠ salt2 ∨ iv1 ≠ iv2) :
    encrypt C kdf text pw salt1 iv1 ≠ encrypt C kdf text pw salt2 iv2 := by
  intro heq
  have hdata := congrArg String.data heq
  rw [encrypt_data_eq, encrypt_data_eq] at hdata
  have hlen : (hexChars salt1).length = (hexChars salt2).length := by
    rw [hexChars_length, hexChars_length, hs1, hs2]
  rcases List.append_inj hdata hlen with ⟨hsalt, hrest⟩
  have hsalteq : salt1 = salt2 := by
    have h2 := congrArg hexDecode hsalt
    rwa [hexDecode_hexChars salt1 hb1, hexDecode_hexChars salt2 hb2] at h2
  simp only [List.cons.injEq] at hrest
  have hleniv : (hexChars iv1).length = (hexChars iv2).length := by
    rw [hexChars_length, hexChars_length, hi1, hi2]
  rcases List.append_inj hrest.2 hleniv with ⟨hiv, _⟩
  have hiveq : iv1 = iv2 := by
    have h2 := congrArg hexDecode hiv
    rwa [hexDecode_hexChars iv1 hib1, hexDecode_hexChars iv2 hib2] at h2
  rcases hne with h | h
  · exact h hsalteq
  · exact h hiveq

/-- Witness for C9: two concrete encryptions of the same bytes under the same
password with different salts give different blobs. -/
theorem encrypt_distinct_witness :
    encrypt toyCipher toyKdf [104, 105] "pw" (List.replicate 16 1)
        (List.replicate 16 2)
      ≠ encrypt toyCipher toyKdf [104, 105] "pw" (List.replicate 16 3)
        (List.replicate 16 2) :=
  encrypt_distinct toyCipher toyKdf [104, 105] "pw" (List.replicate 16 1)
    (List.replicate 16 2) (List.replicate 16 3) (List.replicate 16 2)
    (by decide) (by decide) (by decide) (by decide) (by decide) (by decide)
    (by decide) (by decide) (Or.inl (by decide))

/-- Counterexample to C7 as stated: a blob with four colon-separated fields
does not split into exactly three well-formed hex fields, yet decrypt does
not return the failure signal on it — the source destructures only the
first three fields of the split and silently ignores the rest, so appending
":aa" to a well-formed blob still decrypts successfully. -/
theorem decrypt_totality_cex :
    (splitOnChar ':' (encrypt toyCipher toyKdf [104, 105] "pw"
        (List.replicate 16 1) (List.replicate 16 2) ++ ":aa").data).length = 4 ∧
    decrypt toyCipher toyKdf
      (encrypt toyCipher toyKdf [104, 105] "pw"
        (List.replicate 16 1) (List.replicate 16 2) ++ ":aa") "pw"
      = some [104, 105] := by
  refine ⟨by decide, by decide⟩

/-- C7 (amended): decrypt never throws: it either returns plaintext bytes or
the failure signal.  It splits the blob on ":" and uses the first three
fields, ignoring any extra fields; fewer than three fields, an IV field that
does not (leniently hex-)decode to exactly 16 bytes, an empty or
non-block-aligned ciphertext, and a failed padding check after CBC
decryption all yield the same failure signal, so wrong-password and
corrupt-data cases are indistinguishable to the caller. -/
theorem decrypt_totality (C : BlockCipher) (kdf : String → List Nat → List Nat)
    (pw : String) :
    (∀ blob : String,
      (∃ f1 f2 f3 junk, splitOnChar ':' blob.data = f1 :: f2 :: f3 :: junk ∧
        decrypt C kdf blob pw = decryptFields C kdf f1 f2 f3 pw) ∨
      decrypt C kdf blob pw = none) ∧
    (∀ f1 f2 f3, (hexDecode f2).length ≠ 16 →
      decryptFields C kdf f1 f2 f3 pw = none) ∧
    (∀ f1 f2 f3, (hexDecode f3).length = 0 ∨ (hexDecode f3).length % 16 ≠ 0 →
      decryptFields C kdf f1 f2 f3 pw = none) ∧
    (∀ f1 f2 f3, unpad ((cbcDec C (kdf pw (hexDecode f1)) (hexDecode f2)
        (chunks16 (hexDecode f3))).flatten) = none →
      decryptFields C kdf f1 f2 f3 pw = none) := by
  refine ⟨?_, ?_, ?_, ?_⟩
  · intro blob
    rcases hsp : splitOnChar ':' blob.data with _ | ⟨f1, rest1⟩
    · right; rw [decrypt, hsp]
    rcases rest1 with _ | ⟨f2, rest2⟩
    · right; rw [decrypt, hsp]
    rcases rest2 with _ | ⟨f3, junk⟩
    · right; rw [decrypt, hsp]
    exact Or.inl ⟨f1, f2, f3, junk, rfl, by rw [decrypt, hsp]⟩
  · intro f1 f2 f3 h
    simp only [decryptFields]
    rw [if_neg]
    intro hcond
    exact h hcond.1
  · intro f1 f2 f3 h
    simp only [decryptFields]
    rw [if_neg]
    intro hcond
    rcases h with h | h
    · exact hcond.2.1 h
    · exact h hcond.2.2
  · intro f1 f2 f3 h
    simp only [decryptFields]
    by_cases hc : (hexDecode f2).length = 16 ∧ (hexDecode f3).length ≠ 0 ∧
        (hexDecode f3).length % 16 = 0
    · rw [if_pos hc]; exact h
    · rw [if_neg hc]

/-- Witness for C7 (amended): a structurally broken field triple gives the
failure signal. -/
theorem decrypt_totality_witness :
    ((hexDecode ['a', 'a']).length ≠ 16) ∧
    decryptFields toyCipher toyKdf ['a', 'a'] ['a', 'a'] ['a', 'a'] "pw" = none :=
  ⟨by decide,
    (decrypt_totality toyCipher toyKdf "pw").2.1 ['a', 'a'] ['a', 'a'] ['a', 'a']
      (by decide)⟩

end MemCli
